import Mathlib

/-!
Verification of the BranchFs branch-management core (`src/branch.rs`,
`src/fs.rs`, `src/inode.rs`) against its natural-language specification.

The embedding models the in-memory manager state together with the on-disk
storage it manipulates.  File trees (the base directory and each branch's
`files/` delta directory) are modelled as association lists from canonical
relative paths (`"/a/b"`, exactly one leading slash, no trailing slash) to
file contents; `Path::exists()` on such a tree holds for a stored file key
or for any directory prefix of one.  Storage-level `PathBuf` values are
modelled by the `StoragePath` sum (base/<rel> versus branches/<b>/files/<rel>),
so the `join`/`trim_start_matches('/')` plumbing of the source corresponds to
the two constructors.  Loops whose termination depends on the run-time parent
graph (`resolve_path`, `get_branch_chain`, `classify_path` recursion) are
given explicit fuel; the fuel chosen matches the source's behaviour on every
acyclic state, which the theorems' hypotheses require.
-/

namespace BranchFs

/-- Model of Rust `str::starts_with` used on paths (character-wise prefix). -/
def isPfxOf (p s : String) : Bool := p.toList.isPrefixOf s.toList

/-- `Path::exists()` on a file tree given as an association list of canonical
file paths: the queried relative path is the tree root `"/"`, is a stored
file, or is a directory prefix of a stored file. -/
def treeExists (files : List (String × String)) (rel : String) : Bool :=
  rel == "/" || files.any (fun f => f.1 == rel || isPfxOf (rel ++ "/") f.1)

/-- A storage-level path: either `<base>/<rel>` or
`<storage>/branches/<branch>/files/<rel>` (a delta path). -/
inductive StoragePath where
  | base (rel : String)
  | delta (branch : String) (rel : String)
deriving DecidableEq, Repr

/-- In-memory `Branch` record (`src/branch.rs`): name, parent name, and the
in-memory tombstone set (the `files_dir`/`tombstones_file` paths are implied
by the name, and the delta files live in the on-disk model `Mgr.disk`). -/
structure Branch where
  name : String
  parent : Option String
  tombstones : List String
deriving DecidableEq, Repr

/-- On-disk contents of `branches/<name>/`: the tombstone log lines and the
delta files under `files/`. -/
structure BranchDisk where
  tombLog : List String
  deltaFiles : List (String × String)
deriving DecidableEq, Repr

/-- `BranchManager` state plus the storage it owns: the in-memory branch map,
the on-disk `branches/` directory, the base tree and the epoch counter. -/
structure Mgr where
  branches : List Branch
  disk : List (String × BranchDisk)
  base : List (String × String)
  epoch : Nat
deriving DecidableEq, Repr

def findBranch (m : Mgr) (n : String) : Option Branch :=
  m.branches.find? (fun b => b.name == n)

def diskLookup (d : List (String × BranchDisk)) (n : String) : Option BranchDisk :=
  (d.find? (fun e => e.1 == n)).map (·.2)

/-- The delta files currently on disk for branch `n`. -/
def Mgr.deltaFilesOf (m : Mgr) (n : String) : List (String × String) :=
  ((diskLookup m.disk n).map (·.deltaFiles)).getD []

/-- `Branch::is_deleted`: membership in the in-memory tombstone set. -/
def Branch.is_deleted (b : Branch) (rel : String) : Bool :=
  b.tombstones.contains rel

/-- `Branch::has_delta`: `delta_path(rel).exists()` on the branch's on-disk
delta tree. -/
def Mgr.has_delta (m : Mgr) (bname rel : String) : Bool :=
  treeExists (m.deltaFilesOf bname) rel

/-- `<base>/<rel>.exists()`. -/
def Mgr.baseExists (m : Mgr) (rel : String) : Bool :=
  treeExists m.base rel

def containsName (bs : List Branch) (n : String) : Bool :=
  bs.any (fun b => b.name == n)

/-- `Branch::new`: creates `branches/<name>/files` and the tombstone log when
absent, and loads the tombstone set from an already-present log (so a stale
directory left on disk is picked up as-is). -/
def branchNew (disk : List (String × BranchDisk)) (name : String) (parent : Option String) :
    Branch × List (String × BranchDisk) :=
  match diskLookup disk name with
  | some bd => ({ name := name, parent := parent, tombstones := bd.tombLog }, disk)
  | none => ({ name := name, parent := parent, tombstones := [] }, disk ++ [(name, ⟨[], []⟩)])

inductive BErr where
  | notFound (n : String)
  | alreadyExists (n : String)
  | parentNotFound (n : String)
  | cannotOperateOnMain
  | io
deriving DecidableEq, Repr

/-- `BranchManager::create_branch`: rejects a present name and an absent
parent, then inserts `Branch::new(name, Some(parent))`.  (The source performs
no validity check on the name itself.) -/
def create_branch (m : Mgr) (name parent : String) : Except BErr Mgr :=
  if containsName m.branches name then .error (.alreadyExists name)
  else if !containsName m.branches parent then .error (.parentNotFound parent)
  else
    let p := branchNew m.disk name (some parent)
    .ok { m with branches := m.branches ++ [p.1], disk := p.2 }

/-- The loop of `BranchManager::get_branch_chain`, fuelled: pushes the current
branch and follows `parent` until a root (parent `None`); `none` models both
the `NotFound` error and divergence on a cyclic parent graph (which cannot
arise in the states the theorems quantify over). -/
def chainGo (m : Mgr) : Nat → String → Option (List Branch)
  | 0, _ => none
  | fuel+1, cur =>
    match findBranch m cur with
    | none => none
    | some b =>
      match b.parent with
      | none => some [b]
      | some p => (chainGo m fuel p).map (fun ch => b :: ch)

def get_branch_chain (m : Mgr) (start : String) : Option (List Branch) :=
  chainGo m (m.branches.length + 1) start

/-- Gathering one branch's tombstones into the deletion set
(`deletions.insert(path)` for each tombstone). -/
def collectDels (acc : List String) (ts : List String) : List String :=
  ts.foldl (fun d p => if d.contains p then d else d ++ [p]) acc

/-- The `walk_files` callback of `collect_changes`: each delta file of the
branch is recorded (as its relative path paired with the owning branch's
name, standing for the source's full delta `PathBuf`) unless already seen or
in the deletion set. -/
def addFiles (dels : List String) (bn : String) :
    List (String × String) → List String → List (String × String) →
    List String × List (String × String)
  | [], seen, files => (seen, files)
  | f :: fs, seen, files =>
    if seen.contains f.1 || dels.contains f.1 then addFiles dels bn fs seen files
    else addFiles dels bn fs (seen ++ [f.1]) (files ++ [(f.1, bn)])

/-- The chain loop of `BranchManager::collect_changes`: per branch, first all
tombstones join the deletion set, then the branch's delta files are walked. -/
def collectGo (m : Mgr) :
    List Branch → List String → List String → List (String × String) →
    List String × List (String × String)
  | [], dels, _, files => (dels, files)
  | b :: rest, dels, seen, files =>
    let dels' := collectDels dels b.tombstones
    let sf := addFiles dels' b.name (m.deltaFilesOf b.name) seen files
    collectGo m rest dels' sf.1 sf.2

def collect_changes (m : Mgr) (chain : List Branch) : List String × List (String × String) :=
  collectGo m chain [] [] []

/-- Removing a deletion target from the base (`remove_file` on a file,
`remove_dir_all` on a directory, nothing when absent). -/
def removeTree (files : List (String × String)) (rel : String) : List (String × String) :=
  files.filter (fun f => !(f.1 == rel || isPfxOf (rel ++ "/") f.1))

/-- `fs::copy(src, dest)` into the base at `rel` (parent directories implied
by the tree model). -/
def setFile (files : List (String × String)) (rel content : String) : List (String × String) :=
  files.filter (fun f => f.1 != rel) ++ [(rel, content)]

/-- The bytes `fs::copy` reads from branch `bn`'s delta file at `rel`
(`collect_changes` only emits existing delta files, so the default is never
reached in a commit). -/
def Mgr.deltaContentD (m : Mgr) (bn rel : String) : String :=
  (((m.deltaFilesOf bn).find? (fun f => f.1 == rel)).map (·.2)).getD ""

/-- `BranchManager::commit`: refuse `main`; compute the chain and the
collected changes; apply deletions then delta copies to the base; clear the
in-memory branch map and re-create `main` with `Branch::new` (the on-disk
directories of the destroyed branches are not touched); increment the
epoch. -/
def commit (m : Mgr) (name : String) : Except BErr Mgr :=
  if name == "main" then .error .cannotOperateOnMain
  else
    match get_branch_chain m name with
    | none => .error (.notFound name)
    | some chain =>
      let c := collect_changes m chain
      let base1 := c.1.foldl removeTree m.base
      let base2 := c.2.foldl (fun b f => setFile b f.1 (m.deltaContentD f.2 f.1)) base1
      let p := branchNew m.disk "main" none
      .ok { branches := [p.1], disk := p.2, base := base2, epoch := m.epoch + 1 }

/-- `BranchManager::abort`: refuse `main`; compute the chain; remove every
non-`main` chain member from the in-memory map and its directory from disk;
leave the base and the epoch untouched. -/
def abort (m : Mgr) (name : String) : Except BErr Mgr :=
  if name == "main" then .error .cannotOperateOnMain
  else
    match get_branch_chain m name with
    | none => .error (.notFound name)
    | some chain =>
      let names := chain.map (·.name)
      .ok { m with
        branches := names.foldl
          (fun bs n => if n == "main" then bs else bs.eraseP (fun b => b.name == n)) m.branches,
        disk := names.foldl
          (fun d n => if n == "main" then d else d.eraseP (fun e => e.1 == n)) m.disk }

/-- `BranchManager::abort_single`: a no-op on `main` or an absent branch,
otherwise removes exactly the named branch from memory and disk. -/
def abort_single (m : Mgr) (name : String) : Except BErr Mgr :=
  if name == "main" then .ok m
  else if !containsName m.branches name then .ok m
  else .ok { m with
    branches := m.branches.eraseP (fun b => b.name == name),
    disk := m.disk.eraseP (fun e => e.1 == name) }

/-- Outcome of `resolve_path`: `Ok(Option<PathBuf>)`, the `NotFound` error, or
fuel exhaustion (a cyclic parent graph, on which the source loop diverges). -/
inductive RRes where
  | ok (r : Option StoragePath)
  | branchNotFound (n : String)
  | fuelOut
deriving DecidableEq, Repr

/-- The loop of `BranchManager::resolve_path`: at each branch check the
tombstone set, then the delta tree, then follow `parent`; at a root fall back
to `<base>/<rel>`. -/
def resolveWalk (m : Mgr) (rel : String) : Nat → String → RRes
  | 0, _ => .fuelOut
  | fuel+1, cur =>
    match findBranch m cur with
    | none => .branchNotFound cur
    | some b =>
      if b.is_deleted rel then .ok none
      else if m.has_delta b.name rel then .ok (some (.delta b.name rel))
      else
        match b.parent with
        | some p => resolveWalk m rel fuel p
        | none => if m.baseExists rel then .ok (some (.base rel)) else .ok none

def resolve_path (m : Mgr) (bname rel : String) : RRes :=
  resolveWalk m rel (m.branches.length + 1) bname

/-- The resolution walk as the specification words it, as a function of the
branch chain: the closest chain member with a tombstone gives `absent`, with
a delta gives that delta path, and past the end of the chain the base decides. -/
def chainResolve (m : Mgr) (chain : List Branch) (rel : String) : Option StoragePath :=
  match chain with
  | [] => if m.baseExists rel then some (.base rel) else none
  | b :: rest =>
    if b.is_deleted rel then none
    else if m.has_delta b.name rel then some (.delta b.name rel)
    else chainResolve m rest rel

/-- Whether branch `bn` has a delta *file* at exactly `rel`. -/
def hasFileAt (m : Mgr) (bn rel : String) : Bool :=
  (m.deltaFilesOf bn).any (fun f => f.1 == rel)

/-- First chain member holding a delta file at `rel`, unless a closer member
tombstones `rel` first (the branch whose delta `collect_changes` keeps). -/
def firstHit (m : Mgr) (rel : String) : List Branch → Option String
  | [] => none
  | b :: rest =>
    if b.is_deleted rel then none
    else if hasFileAt m b.name rel then some b.name
    else firstHit m rel rest

def parentOf (m : Mgr) (n : String) : Option String :=
  (findBranch m n).bind (·.parent)

/-- Modelled from the spec: the initial manager state on fresh storage
(`State::new` lives in `state.rs`, which is not part of the sources given);
the spec fixes it as the distinguished root `main` alone, with an empty delta
directory and an unused tombstone set, over the given base tree. -/
def mgrInit (base : List (String × String)) : Mgr :=
  { branches := [{ name := "main", parent := none, tombstones := [] }]
    disk := [("main", ⟨[], []⟩)]
    base := base
    epoch := 0 }

/-! ### The mount-side model: inode table, view state, control handlers -/

def U64_MOD : Nat := 2 ^ 64

/-- `inode.rs`: `ROOT_INO = 1`. -/
def ROOT_INO : Nat := 1

/-- `fs.rs`: `CTL_INO = u64::MAX - 1`. -/
def CTL_INO : Nat := U64_MOD - 1 - 1

/-- `fs.rs`: the start of the branch-ctl inode range, `u64::MAX - 1_000_000`. -/
def CTL_START : Nat := U64_MOD - 1 - 1000000

/-- `InodeManager` state: the dense allocator and the two maps. -/
structure InodeState where
  nextIno : Nat
  pathToIno : List (String × Nat)
  inoToInfo : List (Nat × String × Bool)
deriving DecidableEq, Repr

/-- `InodeManager::new`: root entry, allocation starts at `ROOT_INO + 1`. -/
def inodeInit : InodeState :=
  { nextIno := ROOT_INO + 1
    pathToIno := [("/", ROOT_INO)]
    inoToInfo := [(ROOT_INO, "/", true)] }

/-- `InodeManager::get_or_create`: return the existing number or allocate the
next one (`fetch_add` on a `u64`). -/
def InodeState.get_or_create (s : InodeState) (path : String) (isDir : Bool) : Nat × InodeState :=
  match s.pathToIno.find? (fun e => e.1 == path) with
  | some e => (e.2, s)
  | none =>
    let ino := s.nextIno
    (ino, { nextIno := (s.nextIno + 1) % U64_MOD
            pathToIno := s.pathToIno ++ [(path, ino)]
            inoToInfo := s.inoToInfo ++ [(ino, path, isDir)] })

def InodeState.getPath (s : InodeState) (ino : Nat) : Option String :=
  (s.inoToInfo.find? (fun e => e.1 == ino)).map (fun e => e.2.1)

/-- `InodeManager::remove`: drop both directions for a path. -/
def InodeState.removePath (s : InodeState) (path : String) : InodeState :=
  match s.pathToIno.find? (fun e => e.1 == path) with
  | some e =>
    { s with pathToIno := s.pathToIno.eraseP (fun x => x.1 == path)
             inoToInfo := s.inoToInfo.eraseP (fun x => x.1 == e.2) }
  | none => s

/-- `InodeManager::clear`: drop everything, reinstate the root, keep the
allocator position. -/
def InodeState.clear (s : InodeState) : InodeState :=
  { inodeInit with nextIno := s.nextIno }

/-- `InodeManager::clear_prefix`. -/
def InodeState.clearPfx (s : InodeState) (pfx : String) : InodeState :=
  { s with pathToIno := s.pathToIno.filter (fun e => !isPfxOf pfx e.1)
           inoToInfo := s.inoToInfo.filter (fun e => !isPfxOf pfx e.2.1) }

/-- Per-mount `BranchFs` view state. -/
structure FsView where
  branchName : String
  currentEpoch : Nat
  inodes : InodeState
  branchCtlInodes : List (String × Nat)
  nextCtlIno : Nat
deriving DecidableEq, Repr

/-- `BranchFs::new`. -/
def fsNew (m : Mgr) (branchName : String) : FsView :=
  { branchName := branchName
    currentEpoch := m.epoch
    inodes := inodeInit
    branchCtlInodes := []
    nextCtlIno := CTL_START }

/-- `BranchFs::is_stale`. -/
def FsView.is_stale (v : FsView) (m : Mgr) : Bool :=
  m.epoch != v.currentEpoch || !containsName m.branches v.branchName

/-- `BranchFs::switch_to_branch`: set the branch, observe the current epoch,
clear the inode table. -/
def switch_to_branch (m : Mgr) (v : FsView) (newBranch : String) : FsView :=
  { v with branchName := newBranch, currentEpoch := m.epoch, inodes := v.inodes.clear }

/-- `BranchFs::get_or_create_branch_ctl_ino`: `fetch_add` on the ctl counter
(the old value is handed out, the counter moves up). -/
def get_or_create_branch_ctl_ino (v : FsView) (branch : String) : Nat × FsView :=
  match v.branchCtlInodes.find? (fun e => e.1 == branch) with
  | some e => (e.2, v)
  | none =>
    let ino := v.nextCtlIno
    (ino, { v with branchCtlInodes := v.branchCtlInodes ++ [(branch, ino)]
                   nextCtlIno := (v.nextCtlIno + 1) % U64_MOD })

def branch_for_ctl_ino (v : FsView) (ino : Nat) : Option String :=
  (v.branchCtlInodes.find? (fun e => e.2 == ino)).map (·.1)

inductive CtlErr where
  | eio
  | einval
  | enoent
  | eperm
  | enotty
  | estale
deriving DecidableEq, Repr

/-- The commit/abort arm of the root-ctl `write` handler (`fs.rs`): run the
manager operation on the *current* branch and, on success, switch the view to
`"main"` unconditionally. -/
def rootCtlCommitAbort (m : Mgr) (v : FsView) (isCommit : Bool) : Except CtlErr (Mgr × FsView) :=
  match (if isCommit then commit m v.branchName else abort m v.branchName) with
  | .ok m' => .ok (m', switch_to_branch m' v "main")
  | .error _ => .error .eio

/-- The commit/abort arm of the per-branch-ctl `write` handler (`fs.rs`):
after a commit, clear the inode table, store the new epoch and set the view's
branch to `"main"`; after an abort, only clear the aborted branch's inode
prefix (the view's branch and epoch are left as they were). -/
def branchCtlCommitAbort (m : Mgr) (v : FsView) (branch : String) (isCommit : Bool) :
    Except CtlErr (Mgr × FsView) :=
  match (if isCommit then commit m branch else abort m branch) with
  | .ok m' =>
    if isCommit then
      .ok (m', { v with inodes := v.inodes.clear, currentEpoch := m'.epoch, branchName := "main" })
    else
      .ok (m', { v with inodes := v.inodes.clearPfx ("/@" ++ branch) })
  | .error _ => .error .eio

/-- `BranchFs::ioctl`: command `0x4201` commits and `0x4202` aborts the
mount's current branch; on success the view is switched to `"main"`. -/
def ioctlCmd (m : Mgr) (v : FsView) (cmd : Nat) : Except CtlErr (Mgr × FsView) :=
  if cmd == 0x4201 then
    match commit m v.branchName with
    | .ok m' => .ok (m', switch_to_branch m' v "main")
    | .error _ => .error .eio
  else if cmd == 0x4202 then
    match abort m v.branchName with
    | .ok m' => .ok (m', switch_to_branch m' v "main")
    | .error _ => .error .eio
  else .error .enotty

/-- The `@branch` arm of root-level `lookup` (`fs.rs`): a valid branch gets a
synthetic directory whose inode number comes from the *regular dense* table
via `get_or_create("/@branch")`. -/
def lookupBranchDirIno (m : Mgr) (v : FsView) (branch : String) : Except CtlErr (Nat × FsView) :=
  if containsName m.branches branch then
    let r := v.inodes.get_or_create ("/@" ++ branch) true
    .ok (r.1, { v with inodes := r.2 })
  else .error .enoent

/-! ### The path classifier -/

inductive PathContext where
  | branchDir (name : String)
  | branchCtl (name : String)
  | branchPath (name : String) (rel : String)
  | rootCtl
  | rootPath (p : String)
deriving DecidableEq, Repr

/-- `rest.find('/')` with the two slices it induces: the part before the
first slash and the remainder starting at the slash. -/
def findSlashSplit : List Char → Option (List Char × List Char)
  | [] => none
  | c :: cs =>
    if c = '/' then some ([], c :: cs)
    else (findSlashSplit cs).map (fun p => (c :: p.1, p.2))

/-- The body of `BranchFs::classify_path`, fuelled for the `/@a/@b/...`
recursion (each step strips at least the two characters `/@`, so a fuel of
the path length is always sufficient): the `path == "/"` test, the
`starts_with("/@")` test (`take 2`), the `&path[2..]` slice (`drop 2`), the
`rest.find('/')` split, and the three remainder cases. -/
def classifyGo : Nat → List Char → PathContext
  | 0, p => .rootPath (String.mk p)
  | fuel+1, p =>
    if p = ['/'] then .rootPath "/"
    else if p.take 2 = ['/', '@'] then
      match findSlashSplit (p.drop 2) with
      | some br =>
        if br.2.take 2 = ['/', '@'] then classifyGo fuel br.2
        else if br.2 = '/' :: ".branchfs_ctl".toList then .branchCtl (String.mk br.1)
        else .branchPath (String.mk br.1) (String.mk br.2)
      | none => .branchDir (String.mk (p.drop 2))
    else .rootPath (String.mk p)

/-- `BranchFs::classify_path`. -/
def classify_path (s : String) : PathContext :=
  classifyGo (s.toList.length + 1) s.toList

/-- `BranchFs::classify_ino`: root and `CTL_INO` are recognised directly,
then the branch-ctl map, then the inode table's path through
`classify_path`. -/
def classify_ino (v : FsView) (ino : Nat) : Option PathContext :=
  if ino == ROOT_INO then some (.rootPath "/")
  else if ino == CTL_INO then some .rootCtl
  else
    match branch_for_ctl_ino v ino with
    | some branch => some (.branchCtl branch)
    | none => (v.inodes.getPath ino).map classify_path

/-! ### readdir and unlink -/

/-- If `fileKey` lies strictly inside directory `dirRel`, the entry name
`read_dir` would report for it. -/
def childNameOf (dirRel : String) (fileKey : String) : Option String :=
  let pre := if dirRel == "/" then "/" else dirRel ++ "/"
  if isPfxOf pre fileKey then
    some (String.mk ((fileKey.toList.drop pre.toList.length).takeWhile (fun c => c ≠ '/')))
  else none

/-- The entry names `read_dir` yields for directory `dirRel` of a file tree
(possibly with repeats; the `seen` set in the collector deduplicates). -/
def rawNames (files : List (String × String)) (dirRel : String) : List String :=
  files.filterMap (fun f => childNameOf dirRel f.1)

/-- `entry.path().is_dir()` on a file-tree model. -/
def isDirIn (files : List (String × String)) (rel : String) : Bool :=
  files.any (fun f => isPfxOf (rel ++ "/") f.1)

/-- Child relative path formation used throughout `fs.rs`. -/
def childRelOf (relPath name : String) : String :=
  if relPath == "/" then "/" ++ name else relPath ++ "/" ++ name

/-- One `read_dir` loop of `collect_branch_readdir_entries`: each fresh name
is recorded with an inode from `get_or_create("/@branch" ++ child_rel)` and
its directory flag. -/
def readdirPass (branch relPath : String) (tree : List (String × String)) :
    List String → List String → List (Nat × Bool × String) → InodeState →
    List String × List (Nat × Bool × String) × InodeState
  | [], seen, entries, st => (seen, entries, st)
  | n :: ns, seen, entries, st =>
    if seen.contains n then readdirPass branch relPath tree ns seen entries st
    else
      let childRel := childRelOf relPath n
      let r := st.get_or_create ("/@" ++ branch ++ childRel) (isDirIn tree childRel)
      readdirPass branch relPath tree ns (seen ++ [n]) (entries ++ [(r.1, isDirIn tree childRel, n)]) r.2

/-- `BranchFs::collect_branch_readdir_entries`: `.` and `..`, then every base
directory entry, then the entries of the resolved delta directory (when it
differs from the base directory), first-seen name wins.  No tombstone set is
consulted for the entries. -/
def collect_branch_readdir_entries (m : Mgr) (v : FsView) (branch relPath : String) (ino : Nat) :
    List (Nat × Bool × String) × FsView :=
  let entries0 := [(ino, true, "."), (ino, true, "..")]
  let p1 := readdirPass branch relPath m.base (rawNames m.base relPath) [] entries0 v.inodes
  match resolve_path m branch relPath with
  | .ok (some (.delta bn _)) =>
    let p2 := readdirPass branch relPath (m.deltaFilesOf bn) (rawNames (m.deltaFilesOf bn) relPath)
      p1.1 p1.2.1 p1.2.2
    (p2.2.1, { v with inodes := p2.2.2 })
  | _ => (p1.2.1, { v with inodes := p1.2.2 })

/-- The `BranchPath` arm of `BranchFs::readdir`. -/
def readdirBranch (m : Mgr) (v : FsView) (branch relPath : String) (ino : Nat) :
    Except CtlErr (List (Nat × Bool × String) × FsView) :=
  if !containsName m.branches branch then .error .enoent
  else .ok (collect_branch_readdir_entries m v branch relPath ino)

/-- `resolved.is_dir()` on a storage path. -/
def storageIsDir (m : Mgr) (sp : StoragePath) : Bool :=
  match sp with
  | .base rel => isDirIn m.base rel
  | .delta bn rel => isDirIn (m.deltaFilesOf bn) rel

/-- The regular-child arm of `lookup` inside a branch subtree (`fs.rs`): a
valid branch and a resolvable child give an entry; an unresolvable child is
`ENOENT`. -/
def lookupBranchChild (m : Mgr) (v : FsView) (branch parentRel name : String) :
    Except CtlErr (Nat × FsView) :=
  if !containsName m.branches branch then .error .enoent
  else
    let childRel := childRelOf parentRel name
    match resolve_path m branch childRel with
    | .ok (some sp) =>
      let r := v.inodes.get_or_create ("/@" ++ branch ++ childRel) (storageIsDir m sp)
      .ok (r.1, { v with inodes := r.2 })
    | _ => .error .enoent

/-- `Branch::add_tombstone` with the log append's success as an explicit
fault parameter: the in-memory insert happens first; on a failed append the
error is returned with the insert *not* rolled back. -/
def add_tombstone (b : Branch) (bd : BranchDisk) (p : String) (writeOk : Bool) :
    Branch × BranchDisk × Bool :=
  if b.tombstones.contains p then (b, bd, true)
  else
    let b' := { b with tombstones := b.tombstones ++ [p] }
    if writeOk then (b', { bd with tombLog := bd.tombLog ++ [p] }, true)
    else (b', bd, false)

def setBranch (m : Mgr) (b : Branch) : Mgr :=
  { m with branches := m.branches.map (fun x => if x.name == b.name then b else x) }

def setDisk (m : Mgr) (n : String) (bd : BranchDisk) : Mgr :=
  { m with disk := m.disk.map (fun e => if e.1 == n then (n, bd) else e) }

/-- The `with_branch` closure of `unlink`: add the tombstone, then remove an
existing delta (`remove_file`, which fails on a directory).  Returns the
mutated manager and whether the closure succeeded. -/
def unlinkAt (m : Mgr) (branch rel : String) (writeOk : Bool) : Mgr × Bool :=
  match findBranch m branch, diskLookup m.disk branch with
  | some b, some bd =>
    let r := add_tombstone b bd rel writeOk
    let m1 := setDisk (setBranch m r.1) branch r.2.1
    if !r.2.2 then (m1, false)
    else if hasFileAt m1 branch rel then
      (setDisk m1 branch
        { (diskLookup m1.disk branch).getD ⟨[], []⟩ with
          deltaFiles := (m1.deltaFilesOf branch).filter (fun f => f.1 != rel) }, true)
    else if m1.has_delta branch rel then (m1, false)
    else (m1, true)
  | _, _ => (m, false)

structure UnlinkOut where
  mgr : Mgr
  view : FsView
  err : Option CtlErr
deriving DecidableEq, Repr

/-- The branch-subtree arm of `BranchFs::unlink`: `@child` and the ctl file
are `EPERM`; an invalid branch is `ENOENT`; otherwise tombstone-and-remove,
with `EIO` (and no inode removal) when the closure fails. -/
def unlinkBranchCase (m : Mgr) (v : FsView) (branch parentRel name : String) (writeOk : Bool) :
    UnlinkOut :=
  if isPfxOf "@" name || name == ".branchfs_ctl" then ⟨m, v, some .eperm⟩
  else if !containsName m.branches branch then ⟨m, v, some .enoent⟩
  else
    let rel := childRelOf parentRel name
    let r := unlinkAt m branch rel writeOk
    if r.2 then ⟨r.1, { v with inodes := v.inodes.removePath ("/@" ++ branch ++ rel) }, none⟩
    else ⟨r.1, v, some .eio⟩

/-! ### Reachable manager states and the parent invariant -/

/-- Manager states reachable from a fresh store through the four structural
operations. -/
inductive Reach : Mgr → Prop
  | init (base : List (String × String)) : Reach (mgrInit base)
  | create {m m' : Mgr} {n p : String} : Reach m → create_branch m n p = .ok m' → Reach m'
  | commitStep {m m' : Mgr} {n : String} : Reach m → commit m n = .ok m' → Reach m'
  | abortStep {m m' : Mgr} {n : String} : Reach m → abort m n = .ok m' → Reach m'
  | abortSingleStep {m m' : Mgr} {n : String} : Reach m → abort_single m n = .ok m' → Reach m'

/-- Invariant 1 of the spec: every branch other than `main` has a parent
naming an existing branch. -/
def invHolds (m : Mgr) : Bool :=
  m.branches.all (fun b =>
    b.name == "main" ||
      (match b.parent with
       | some p => containsName m.branches p
       | none => false))

/-- Exact-file lookup in a file-tree model (the content `fs::read` returns
for a stored file, `none` when no file is stored at exactly that path). -/
def lookupFile (files : List (String × String)) (p : String) : Option String :=
  (files.find? (fun f => f.1 == p)).map (fun f => f.2)

/-- Well-formedness of the delta trees along a chain: no delta file of any
chain member lies strictly below another's delta file path (on a real
filesystem a path cannot be both a file and a directory, and `commit` would
abort with `EISDIR` on such a conflict). -/
def NoConflict (m : Mgr) (ch : List Branch) : Prop :=
  ∀ b1 ∈ ch, ∀ b2 ∈ ch, ∀ f1 ∈ m.deltaFilesOf b1.name, ∀ f2 ∈ m.deltaFilesOf b2.name,
    isPfxOf (f1.1 ++ "/") f2.1 = false

/-! ### Helper lemmas -/

theorem containsName_iff (bs : List Branch) (n : String) :
    containsName bs n = true ↔ ∃ b ∈ bs, b.name = n := by
  simp [containsName, List.any_eq_true, beq_iff_eq]

theorem findBranch_name {m : Mgr} {n : String} {b : Branch}
    (h : findBranch m n = some b) : b.name = n ∧ b ∈ m.branches := by
  have h1 := List.find?_some h
  have h2 := List.mem_of_find?_eq_some h
  exact ⟨by simpa [beq_iff_eq] using h1, h2⟩

theorem find?_append_none {α : Type} {l₁ l₂ : List α} {p : α → Bool}
    (h : l₁.find? p = none) : (l₁ ++ l₂).find? p = l₂.find? p := by
  induction l₁ with
  | nil => rfl
  | cons x xs ih =>
    rw [List.find?_eq_none] at h
    have hx : p x = false := by
      have := h x (by simp)
      simpa using this
    have hxs : xs.find? p = none := by
      rw [List.find?_eq_none]
      intro a ha
      exact h a (by simp [ha])
    simp only [List.cons_append, List.find?_cons, hx]
    exact ih hxs

theorem branchNew_fst (d : List (String × BranchDisk)) (n : String) (par : Option String) :
    (branchNew d n par).1.name = n ∧ (branchNew d n par).1.parent = par := by
  unfold branchNew
  cases diskLookup d n <;> simp

theorem find?_map_replace (d : List (String × BranchDisk)) (n : String) (bd : BranchDisk)
    (h : (d.find? (fun e => e.1 == n)).isSome = true) :
    (d.map (fun e => if e.1 == n then (n, bd) else e)).find? (fun e => e.1 == n) =
      some (n, bd) := by
  induction d with
  | nil => simp at h
  | cons x xs ih =>
    by_cases hx : x.1 = n
    · simp [List.find?_cons, hx]
    · have hx' : (x.1 == n) = false := by simp [hx]
      simp only [List.find?_cons, hx'] at h
      simp only [List.map_cons, hx', Bool.false_eq_true, if_false, List.find?_cons, hx']
      exact ih h

theorem find?_map_update (bs : List Branch) (n : String) (b' : Branch) (hb' : b'.name = n)
    (h : (bs.find? (fun x => x.name == n)).isSome = true) :
    (bs.map (fun x => if x.name == n then b' else x)).find? (fun x => x.name == n) =
      some b' := by
  induction bs with
  | nil => simp at h
  | cons x xs ih =>
    by_cases hx : x.name = n
    · simp [List.find?_cons, hx, hb']
    · have hx' : (x.name == n) = false := by simp [hx]
      simp only [List.find?_cons, hx'] at h
      simp only [List.map_cons, hx', Bool.false_eq_true, if_false, List.find?_cons, hx']
      exact ih h

theorem eraseP_eq_filter_of_key_nodup {α : Type} (key : α → String) (l : List α) (n : String)
    (hnodup : (l.map key).Nodup) :
    l.eraseP (fun a => key a == n) = l.filter (fun a => !(key a == n)) := by
  induction l with
  | nil => rfl
  | cons x xs ih =>
    simp only [List.map_cons, List.nodup_cons] at hnodup
    by_cases hx : key x = n
    · have hx' : (key x == n) = true := by simp [hx]
      rw [List.eraseP_cons, List.filter_cons]
      simp only [hx', cond_true, Bool.not_true, Bool.false_eq_true, if_false]
      symm
      rw [List.filter_eq_self]
      intro a ha
      simp only [Bool.not_eq_true', beq_eq_false_iff_ne, ne_eq]
      intro hcon
      exact hnodup.1 (hx ▸ hcon ▸ List.mem_map_of_mem key ha)

    · have hx' : (key x == n) = false := by simp [hx]
      rw [List.eraseP_cons, List.filter_cons]
      simp only [hx', cond_false, Bool.not_false, if_true]
      rw [ih hnodup.2]

theorem foldl_erase_eq_filter {α : Type} (key : α → String) (names : List String) (l : List α)
    (hnodup : (l.map key).Nodup) :
    names.foldl (fun acc nn => if nn == "main" then acc else acc.eraseP (fun a => key a == nn)) l
      = l.filter (fun a => key a == "main" || !names.contains (key a)) := by
  induction names generalizing l with
  | nil =>
    simp only [List.foldl_nil]
    symm
    rw [List.filter_eq_self]
    intro a _
    simp
  | cons nn rest ih =>
    simp only [List.foldl_cons]
    by_cases hm : nn = "main"
    · subst hm
      simp only [beq_self_eq_true, if_true]
      rw [ih l hnodup]
      apply List.filter_congr
      intro a _
      by_cases hk : key a = "main" <;> simp [hk]
    · have hm' : (nn == "main") = false := by simp [hm]
      simp only [hm', Bool.false_eq_true, if_false]
      rw [eraseP_eq_filter_of_key_nodup key l nn hnodup]
      rw [ih _ (List.Nodup.sublist (List.Sublist.map key (List.filter_sublist _)) hnodup)]
      rw [List.filter_filter]
      apply List.filter_congr
      intro a _
      by_cases hk : key a = "main"
      · simp [hk, hm, Ne.symm hm]
      · by_cases hkn : key a = nn <;> simp [hk, hkn, hm]

theorem chainGo_cons {m : Mgr} {fuel : Nat} {start : String} {ch : List Branch}
    (h : chainGo m fuel start = some ch) :
    ∃ b rest, ch = b :: rest ∧ b.name = start ∧ b ∈ m.branches := by
  cases fuel with
  | zero => cases h
  | succ f =>
    unfold chainGo at h
    split at h
    · cases h
    · next b hfb =>
      obtain ⟨hn, hm⟩ := findBranch_name hfb
      split at h
      · injection h with h
        exact ⟨b, [], h.symm, hn, hm⟩
      · next p hp =>
        cases hrec : chainGo m f p with
        | none => rw [hrec] at h; cases h
        | some ch' =>
          rw [hrec] at h
          injection h with h
          exact ⟨b, ch', h.symm, hn, hm⟩

theorem create_ok {m : Mgr} {name parent : String} {m' : Mgr}
    (h : create_branch m name parent = .ok m') :
    containsName m.branches name = false ∧ containsName m.branches parent = true ∧
    m' = { m with branches := m.branches ++ [(branchNew m.disk name (some parent)).1],
                  disk := (branchNew m.disk name (some parent)).2 } := by
  unfold create_branch at h
  split at h
  · cases h
  · split at h
    · cases h
    · next h1 h2 =>
      injection h with h
      refine ⟨by simpa using h1, by simpa using h2, h.symm⟩

theorem commit_ok {m : Mgr} {name : String} {m' : Mgr}
    (h : commit m name = .ok m') :
    (name == "main") = false ∧
    ∃ ch, get_branch_chain m name = some ch ∧
      m' = { branches := [(branchNew m.disk "main" none).1]
             disk := (branchNew m.disk "main" none).2
             base := (collect_changes m ch).2.foldl
               (fun b f => setFile b f.1 (m.deltaContentD f.2 f.1))
               ((collect_changes m ch).1.foldl removeTree m.base)
             epoch := m.epoch + 1 } := by
  unfold commit at h
  split at h
  · cases h
  · next hcond =>
    cases hch : get_branch_chain m name with
    | none => rw [hch] at h; cases h
    | some ch =>
      rw [hch] at h
      injection h with h
      exact ⟨by simpa using hcond, ch, rfl, h.symm⟩

theorem abort_ok {m : Mgr} {name : String} {m' : Mgr}
    (h : abort m name = .ok m') :
    (name == "main") = false ∧
    ∃ ch, get_branch_chain m name = some ch ∧
      m' = { m with
        branches := (ch.map (fun x => x.name)).foldl
          (fun bs n => if n == "main" then bs else bs.eraseP (fun b => b.name == n)) m.branches
        disk := (ch.map (fun x => x.name)).foldl
          (fun d n => if n == "main" then d else d.eraseP (fun e => e.1 == n)) m.disk } := by
  unfold abort at h
  split at h
  · cases h
  · next hcond =>
    cases hch : get_branch_chain m name with
    | none => rw [hch] at h; cases h
    | some ch =>
      rw [hch] at h
      injection h with h
      exact ⟨by simpa using hcond, ch, rfl, h.symm⟩

theorem abort_single_cases {m : Mgr} {name : String} {m' : Mgr}
    (h : abort_single m name = .ok m') :
    m' = m ∨
    m' = { m with branches := m.branches.eraseP (fun b => b.name == name)
                  disk := m.disk.eraseP (fun e => e.1 == name) } := by
  unfold abort_single at h
  split at h
  · injection h with h; exact .inl h.symm
  · split at h
    · injection h with h; exact .inl h.symm
    · injection h with h; exact .inr h.symm

theorem invHolds_iff (m : Mgr) :
    invHolds m = true ↔ ∀ b ∈ m.branches, b.name ≠ "main" →
      ∃ pa, b.parent = some pa ∧ containsName m.branches pa = true := by
  unfold invHolds
  rw [List.all_eq_true]
  constructor
  · intro h b hb hbn
    have hx := h b hb
    simp only [Bool.or_eq_true, beq_iff_eq] at hx
    rcases hx with h1 | h2
    · exact absurd h1 hbn
    · cases hpa : b.parent with
      | none => rw [hpa] at h2; cases h2
      | some pa => rw [hpa] at h2; exact ⟨pa, rfl, h2⟩
  · intro h b hb
    simp only [Bool.or_eq_true, beq_iff_eq]
    by_cases hbn : b.name = "main"
    · exact .inl hbn
    · obtain ⟨pa, hpa, hc⟩ := h b hb hbn
      rw [hpa]
      exact .inr hc

/-! ### C3: the parent-exists invariant across the operations -/

/-- C3, amended: `create_branch` preserves the parent-exists invariant and
`commit` re-establishes it outright (the branch set becomes `main` alone);
but `abort` removes a branch's whole chain toward the root, and
`abort_single` removes one branch, so each preserves the invariant only when
no surviving branch names a removed branch as its parent — in general the
invariant can be broken (see the counterexample). -/
theorem parent_invariant_spec :
    (∀ m m' (n p : String), create_branch m n p = .ok m' →
      invHolds m = true → invHolds m' = true) ∧
    (∀ m m' (n : String), commit m n = .ok m' → invHolds m' = true) ∧
    (∀ m m' (n : String) ch, (m.branches.map (fun x => x.name)).Nodup →
      abort m n = .ok m' → invHolds m = true →
      get_branch_chain m n = some ch →
      (∀ b ∈ m.branches, ∀ pa, b.parent = some pa →
        (ch.map (fun x => x.name)).contains pa = true →
        pa = "main" ∨ (ch.map (fun x => x.name)).contains b.name = true) →
      invHolds m' = true) ∧
    (∀ m m' (n : String), abort_single m n = .ok m' → invHolds m = true →
      (∀ b ∈ m.branches, b.parent ≠ some n) → invHolds m' = true) := by
  refine ⟨?_, ?_, ?_, ?_⟩
  · intro m m' n p hok hinv
    obtain ⟨hn, hp, hm'⟩ := create_ok hok
    subst hm'
    rw [invHolds_iff]
    rw [invHolds_iff] at hinv
    intro b hb hbn
    simp only [List.mem_append, List.mem_singleton] at hb
    have hgrow : ∀ q, containsName m.branches q = true →
        containsName (m.branches ++ [(branchNew m.disk n (some p)).1]) q = true := by
      intro q hq
      unfold containsName at hq ⊢
      rw [List.any_append, hq]
      rfl
    rcases hb with hb | hb
    · obtain ⟨pa, hpa, hc⟩ := hinv b hb hbn
      exact ⟨pa, hpa, hgrow pa hc⟩
    · subst hb
      exact ⟨p, (branchNew_fst m.disk n (some p)).2, hgrow p hp⟩
  · intro m m' n hok
    obtain ⟨-, ch, -, hm'⟩ := commit_ok hok
    subst hm'
    rw [invHolds_iff]
    intro b hb hbn
    simp only [List.mem_singleton] at hb
    exact absurd (hb ▸ (branchNew_fst m.disk "main" none).1) hbn
  · intro m m' n ch hnodup hok hinv hch hclosed
    obtain ⟨-, ch', hch', hm'⟩ := abort_ok hok
    rw [hch] at hch'
    injection hch' with hch'
    subst hch'
    have hbr : m'.branches = m.branches.filter
        (fun b => b.name == "main" || !(ch.map (fun x => x.name)).contains b.name) := by
      rw [hm']
      exact foldl_erase_eq_filter (fun x => x.name) (ch.map (fun x => x.name)) m.branches hnodup
    rw [invHolds_iff] at hinv
    rw [invHolds_iff, hbr]
    intro b hb hbn
    have hmem := (List.mem_filter.1 hb).1
    have hpred := (List.mem_filter.1 hb).2
    obtain ⟨pa, hpa, hc⟩ := hinv b hmem hbn
    refine ⟨pa, hpa, ?_⟩
    rw [containsName_iff] at hc
    obtain ⟨b2, hb2, hb2n⟩ := hc
    rw [containsName_iff]
    refine ⟨b2, List.mem_filter.2 ⟨hb2, ?_⟩, hb2n⟩
    simp only [Bool.or_eq_true, beq_iff_eq, Bool.not_eq_true']
    by_cases hpam : pa = "main"
    · exact .inl (hb2n.trans hpam)
    · right
      by_cases hcontain : (ch.map (fun x => x.name)).contains pa = true
      · rcases hclosed b hmem pa hpa hcontain with h1 | h1
        · exact absurd h1 hpam
        · exfalso
          simp only [Bool.or_eq_true, beq_iff_eq, Bool.not_eq_true'] at hpred
          rcases hpred with h2 | h2
          · exact hbn h2
          · rw [h1] at h2; cases h2
      · rw [hb2n]
        simpa using hcontain
  · intro m m' n hok hinv hleaf
    rcases abort_single_cases hok with hm' | hm'
    · subst hm'; exact hinv
    · subst hm'
      rw [invHolds_iff]
      rw [invHolds_iff] at hinv
      intro b hb hbn
      have hmem : b ∈ m.branches := List.mem_of_mem_eraseP hb
      obtain ⟨pa, hpa, hc⟩ := hinv b hmem hbn
      refine ⟨pa, hpa, ?_⟩
      rw [containsName_iff] at hc
      obtain ⟨b2, hb2, hb2n⟩ := hc
      rw [containsName_iff]
      have hpan : pa ≠ n := by
        intro hcon
        exact hleaf b hmem (hcon ▸ hpa)
      refine ⟨b2, ?_, hb2n⟩
      rw [List.mem_eraseP_of_neg]
      · exact hb2
      · simp only [beq_iff_eq]
        rw [hb2n]
        exact hpan

/-- C3 witness: a `create_branch` that preserves the invariant on a concrete
state. -/
theorem parent_invariant_spec_witness :
    ∀ m', create_branch (mgrInit []) "b1" "main" = .ok m' → invHolds m' = true := by
  intro m' h
  exact parent_invariant_spec.1 (mgrInit []) m' "b1" "main" h (by decide)

/-- C3 counterexample: `create b1 from main; create b2 from b1; abort b1`
reaches a state whose branch `b2` has the dangling parent `b1` — the
invariant is not preserved by `abort`. -/
theorem parent_invariant_counterexample :
    ∃ mBad : Mgr, Reach mBad ∧ invHolds mBad = false := by
  refine ⟨{ branches := [{ name := "main", parent := none, tombstones := [] },
                         { name := "b2", parent := some "b1", tombstones := [] }]
            disk := [("main", ⟨[], []⟩), ("b2", ⟨[], []⟩)]
            base := []
            epoch := 0 }, ?_, by decide⟩
  have h1 : create_branch (mgrInit []) "b1" "main" =
      .ok { branches := [{ name := "main", parent := none, tombstones := [] },
                         { name := "b1", parent := some "main", tombstones := [] }]
            disk := [("main", ⟨[], []⟩), ("b1", ⟨[], []⟩)]
            base := []
            epoch := 0 } := by rfl
  have h2 : create_branch
      { branches := [{ name := "main", parent := none, tombstones := [] },
                     { name := "b1", parent := some "main", tombstones := [] }]
        disk := [("main", ⟨[], []⟩), ("b1", ⟨[], []⟩)]
        base := []
        epoch := 0 } "b2" "b1" =
      .ok { branches := [{ name := "main", parent := none, tombstones := [] },
                         { name := "b1", parent := some "main", tombstones := [] },
                         { name := "b2", parent := some "b1", tombstones := [] }]
            disk := [("main", ⟨[], []⟩), ("b1", ⟨[], []⟩), ("b2", ⟨[], []⟩)]
            base := []
            epoch := 0 } := by rfl
  have h3 : abort
      { branches := [{ name := "main", parent := none, tombstones := [] },
                     { name := "b1", parent := some "main", tombstones := [] },
                     { name := "b2", parent := some "b1", tombstones := [] }]
        disk := [("main", ⟨[], []⟩), ("b1", ⟨[], []⟩), ("b2", ⟨[], []⟩)]
        base := []
        epoch := 0 } "b1" =
      .ok { branches := [{ name := "main", parent := none, tombstones := [] },
                         { name := "b2", parent := some "b1", tombstones := [] }]
            disk := [("main", ⟨[], []⟩), ("b2", ⟨[], []⟩)]
            base := []
            epoch := 0 } := by rfl
  exact Reach.abortStep (Reach.create (Reach.create (Reach.init []) h1) h2) h3

/-! ### C4: the frame of abort -/

/-- C4: after a successful `abort(b)` the epoch is unchanged, the base is
unchanged, the branch set is exactly the old one minus the non-`main` members
of `b`'s chain toward the root, branches outside the chain survive with
identical records, and `b` itself is gone. -/
theorem abort_frame_spec (m : Mgr) (name : String) (m' : Mgr) (ch : List Branch)
    (hnodup : (m.branches.map (fun x => x.name)).Nodup)
    (hch : get_branch_chain m name = some ch)
    (hok : abort m name = .ok m') :
    m'.epoch = m.epoch ∧ m'.base = m.base ∧
    m'.branches = m.branches.filter
      (fun b => b.name == "main" || !(ch.map (fun x => x.name)).contains b.name) ∧
    (∀ b ∈ m.branches, (ch.map (fun x => x.name)).contains b.name = false →
      b ∈ m'.branches) ∧
    containsName m'.branches name = false := by
  obtain ⟨hnm, ch', hch', hm'⟩ := abort_ok hok
  rw [hch] at hch'
  injection hch' with hch'
  subst hch'
  have hbr : m'.branches = m.branches.filter
      (fun b => b.name == "main" || !(ch.map (fun x => x.name)).contains b.name) := by
    rw [hm']
    exact foldl_erase_eq_filter (fun x => x.name) (ch.map (fun x => x.name)) m.branches hnodup
  refine ⟨by rw [hm'], by rw [hm'], hbr, ?_, ?_⟩
  · intro b hb hout
    rw [hbr]
    refine List.mem_filter.2 ⟨hb, ?_⟩
    rw [hout]
    simp
  · obtain ⟨bh, rest, hcons, hbh, -⟩ := chainGo_cons hch
    have hin : (ch.map (fun x => x.name)).contains name = true := by
      rw [hcons]
      simp [hbh]
    rw [hbr]
    by_contra hcon
    rw [Bool.not_eq_false, containsName_iff] at hcon
    obtain ⟨b, hb, hbn⟩ := hcon
    have hpred := (List.mem_filter.1 hb).2
    simp only [Bool.or_eq_true, beq_iff_eq, Bool.not_eq_true'] at hpred
    rcases hpred with h1 | h1
    · rw [hbn] at h1
      rw [h1] at hnm
      cases hnm
    · rw [hbn] at h1
      rw [h1] at hin
      cases hin

/-- C4 witness. -/
theorem abort_frame_spec_witness :
    ∃ m', abort
      { branches := [{ name := "main", parent := none, tombstones := [] },
                     { name := "b1", parent := some "main", tombstones := [] }]
        disk := [("main", ⟨[], []⟩), ("b1", ⟨[], []⟩)]
        base := [("/x", "v1")]
        epoch := 7 } "b1" = .ok m' ∧
      m'.epoch = 7 ∧ m'.base = [("/x", "v1")] ∧ containsName m'.branches "b1" = false := by
  obtain ⟨m', hok⟩ : ∃ m', abort
      { branches := [{ name := "main", parent := none, tombstones := [] },
                     { name := "b1", parent := some "main", tombstones := [] }]
        disk := [("main", ⟨[], []⟩), ("b1", ⟨[], []⟩)]
        base := [("/x", "v1")]
        epoch := 7 } "b1" = .ok m' := ⟨_, rfl⟩
  obtain ⟨ch, hch⟩ : ∃ ch, get_branch_chain
      { branches := [{ name := "main", parent := none, tombstones := [] },
                     { name := "b1", parent := some "main", tombstones := [] }]
        disk := [("main", ⟨[], []⟩), ("b1", ⟨[], []⟩)]
        base := [("/x", "v1")]
        epoch := 7 } "b1" = some ch := ⟨_, rfl⟩
  have h := abort_frame_spec _ "b1" m' ch (by decide) hch hok
  exact ⟨m', hok, h.1, h.2.1, h.2.2.2.2⟩

/-! ### C5: view switching after commit/abort -/

/-- C5, amended: after every successful commit or abort issued through the
root control file or the ioctl commands the mount's view is switched to
`main` unconditionally (which equals the affected branch's parent only when
that branch was a direct child of `main`); a per-branch-ctl commit also
switches the view to `main`, while a per-branch-ctl abort leaves the view's
current branch and observed epoch unchanged. -/
theorem view_switch_spec (m : Mgr) (v : FsView) (branch : String) :
    (∀ m' v', ioctlCmd m v 0x4201 = .ok (m', v') →
      v'.branchName = "main" ∧ v'.currentEpoch = m'.epoch) ∧
    (∀ m' v', ioctlCmd m v 0x4202 = .ok (m', v') →
      v'.branchName = "main" ∧ v'.currentEpoch = m'.epoch) ∧
    (∀ b m' v', rootCtlCommitAbort m v b = .ok (m', v') →
      v'.branchName = "main" ∧ v'.currentEpoch = m'.epoch) ∧
    (∀ m' v', branchCtlCommitAbort m v branch true = .ok (m', v') →
      v'.branchName = "main" ∧ v'.currentEpoch = m'.epoch) ∧
    (∀ m' v', branchCtlCommitAbort m v branch false = .ok (m', v') →
      v'.branchName = v.branchName ∧ v'.currentEpoch = v.currentEpoch) := by
  refine ⟨?_, ?_, ?_, ?_, ?_⟩
  · intro m' v' h
    unfold ioctlCmd at h
    norm_num at h
    split at h
    · injection h with h; injection h with h1 h2
      subst h1; subst h2; exact ⟨rfl, rfl⟩
    · cases h
  · intro m' v' h
    unfold ioctlCmd at h
    norm_num at h
    split at h
    · injection h with h; injection h with h1 h2
      subst h1; subst h2; exact ⟨rfl, rfl⟩
    · cases h
  · intro b m' v' h
    unfold rootCtlCommitAbort at h
    split at h
    · injection h with h; injection h with h1 h2
      subst h1; subst h2; exact ⟨rfl, rfl⟩
    · cases h
  · intro m' v' h
    unfold branchCtlCommitAbort at h
    split at h
    · norm_num at h
      obtain ⟨h1, h2⟩ := h
      subst h1; subst h2; exact ⟨rfl, rfl⟩
    · cases h
  · intro m' v' h
    unfold branchCtlCommitAbort at h
    split at h
    · norm_num at h
      obtain ⟨h1, h2⟩ := h
      subst h1; subst h2; exact ⟨rfl, rfl⟩
    · cases h

/-- C5 witness: on a concrete two-level state, an ioctl abort of `b2`
switches the view to `main`. -/
theorem view_switch_spec_witness :
    ∃ m' v',
      ioctlCmd
        { branches := [{ name := "main", parent := none, tombstones := [] },
                       { name := "b1", parent := some "main", tombstones := [] },
                       { name := "b2", parent := some "b1", tombstones := [] }]
          disk := [("main", ⟨[], []⟩), ("b1", ⟨[], []⟩), ("b2", ⟨[], []⟩)]
          base := []
          epoch := 0 }
        (fsNew
          { branches := [{ name := "main", parent := none, tombstones := [] },
                         { name := "b1", parent := some "main", tombstones := [] },
                         { name := "b2", parent := some "b1", tombstones := [] }]
            disk := [("main", ⟨[], []⟩), ("b1", ⟨[], []⟩), ("b2", ⟨[], []⟩)]
            base := []
            epoch := 0 } "b2") 0x4202 = .ok (m', v') ∧
      v'.branchName = "main" := by
  obtain ⟨m', v', h⟩ :
      ∃ m' v',
        ioctlCmd
          { branches := [{ name := "main", parent := none, tombstones := [] },
                         { name := "b1", parent := some "main", tombstones := [] },
                         { name := "b2", parent := some "b1", tombstones := [] }]
            disk := [("main", ⟨[], []⟩), ("b1", ⟨[], []⟩), ("b2", ⟨[], []⟩)]
            base := []
            epoch := 0 }
          (fsNew
            { branches := [{ name := "main", parent := none, tombstones := [] },
                           { name := "b1", parent := some "main", tombstones := [] },
                           { name := "b2", parent := some "b1", tombstones := [] }]
              disk := [("main", ⟨[], []⟩), ("b1", ⟨[], []⟩), ("b2", ⟨[], []⟩)]
              base := []
              epoch := 0 } "b2") 0x4202 = .ok (m', v') := ⟨_, _, rfl⟩
  exact ⟨m', v', h, ((view_switch_spec _ _ "b2").2.1 m' v' h).1⟩

/-- C5 counterexample: with `main ← b1 ← b2` and the view on `b2`, a
successful ioctl abort switches the view to `main`, not to `b2`'s parent
`b1`. -/
theorem view_switch_claim_counterexample :
    (ioctlCmd
      { branches := [{ name := "main", parent := none, tombstones := [] },
                     { name := "b1", parent := some "main", tombstones := [] },
                     { name := "b2", parent := some "b1", tombstones := [] }]
        disk := [("main", ⟨[], []⟩), ("b1", ⟨[], []⟩), ("b2", ⟨[], []⟩)]
        base := []
        epoch := 0 }
      (fsNew
        { branches := [{ name := "main", parent := none, tombstones := [] },
                       { name := "b1", parent := some "main", tombstones := [] },
                       { name := "b2", parent := some "b1", tombstones := [] }]
          disk := [("main", ⟨[], []⟩), ("b1", ⟨[], []⟩), ("b2", ⟨[], []⟩)]
          base := []
          epoch := 0 } "b2") 0x4202).toOption.map (fun r => r.2.branchName) = some "main" ∧
    parentOf
      { branches := [{ name := "main", parent := none, tombstones := [] },
                     { name := "b1", parent := some "main", tombstones := [] },
                     { name := "b2", parent := some "b1", tombstones := [] }]
        disk := [("main", ⟨[], []⟩), ("b1", ⟨[], []⟩), ("b2", ⟨[], []⟩)]
        base := []
        epoch := 0 } "b2" = some "b1" ∧
    ("main" : String) ≠ "b1" := by
  exact ⟨rfl, rfl, by decide⟩

/-! ### C6: failed tombstone log write -/

/-- C6, amended: if appending the tombstone entry to the on-disk log fails,
`add_tombstone` returns an error, the on-disk log and delta files are
unchanged and the enclosing `unlink` fails without removing the inode entry —
but the branch's in-memory tombstone set has already been updated (the
`HashSet` insert precedes the log write and is not rolled back). -/
theorem unlink_log_failure_spec (m : Mgr) (v : FsView) (branch parentRel name : String)
    (b : Branch) (bd : BranchDisk)
    (hname : isPfxOf "@" name = false) (hctl : (name == ".branchfs_ctl") = false)
    (hfb : findBranch m branch = some b)
    (hbd : diskLookup m.disk branch = some bd)
    (hfresh : b.tombstones.contains (childRelOf parentRel name) = false) :
    (unlinkBranchCase m v branch parentRel name false).err = some .eio ∧
    (unlinkBranchCase m v branch parentRel name false).view = v ∧
    diskLookup (unlinkBranchCase m v branch parentRel name false).mgr.disk branch = some bd ∧
    ∀ b', findBranch (unlinkBranchCase m v branch parentRel name false).mgr branch = some b' →
      b'.tombstones = b.tombstones ++ [childRelOf parentRel name] := by
  have hbname : b.name = branch := (findBranch_name hfb).1
  subst hbname
  have hcontains : containsName m.branches b.name = true := by
    rw [containsName_iff]
    exact ⟨b, (findBranch_name hfb).2, rfl⟩
  have hstone :
      add_tombstone b bd (childRelOf parentRel name) false =
        ({ b with tombstones := b.tombstones ++ [childRelOf parentRel name] }, bd, false) := by
    unfold add_tombstone
    rw [hfresh]
    simp
  have hun : unlinkAt m b.name (childRelOf parentRel name) false =
      (setDisk (setBranch m { b with tombstones := b.tombstones ++ [childRelOf parentRel name] })
        b.name bd, false) := by
    unfold unlinkAt
    rw [hfb, hbd]
    simp [hstone]
  have hout : unlinkBranchCase m v b.name parentRel name false =
      ⟨setDisk (setBranch m { b with tombstones := b.tombstones ++ [childRelOf parentRel name] })
        b.name bd, v, some .eio⟩ := by
    unfold unlinkBranchCase
    rw [hname, hctl, hcontains]
    simp only [Bool.false_or, Bool.not_true, Bool.false_eq_true, if_false, hun]
  have hsomeD : (m.disk.find? (fun e => e.1 == b.name)).isSome = true := by
    unfold diskLookup at hbd
    cases hfind : m.disk.find? (fun e => e.1 == b.name) with
    | none => rw [hfind] at hbd; cases hbd
    | some e => rfl
  have hsomeB : (m.branches.find? (fun x => x.name == b.name)).isSome = true := by
    unfold findBranch at hfb
    rw [hfb]
    rfl
  refine ⟨by rw [hout], by rw [hout], ?_, ?_⟩
  · rw [hout]
    show diskLookup (m.disk.map (fun e => if e.1 == b.name then (b.name, bd) else e))
      b.name = some bd
    unfold diskLookup
    rw [find?_map_replace m.disk b.name bd hsomeD]
    rfl
  · intro b' hb'
    rw [hout] at hb'
    show b'.tombstones = ({ b with
      tombstones := b.tombstones ++ [childRelOf parentRel name] } : Branch).tombstones
    have hb2 : (m.branches.map (fun x => if x.name == b.name
        then { b with tombstones := b.tombstones ++ [childRelOf parentRel name] }
        else x)).find? (fun x => x.name == b.name) = some b' := hb'
    rw [find?_map_update m.branches b.name
      { b with tombstones := b.tombstones ++ [childRelOf parentRel name] } rfl hsomeB] at hb2
    injection hb2 with hb2
    rw [← hb2]

/-- C6 witness. -/
theorem unlink_log_failure_spec_witness :
    (unlinkBranchCase
      { branches := [{ name := "main", parent := none, tombstones := [] },
                     { name := "b2", parent := some "main", tombstones := [] }]
        disk := [("main", ⟨[], []⟩), ("b2", ⟨[], [("/x", "v2")]⟩)]
        base := [("/x", "v1")]
        epoch := 0 }
      (fsNew (mgrInit []) "b2") "b2" "/" "x" false).err = some .eio := by
  exact (unlink_log_failure_spec _ (fsNew (mgrInit []) "b2") "b2" "/" "x"
    { name := "b2", parent := some "main", tombstones := [] }
    ⟨[], [("/x", "v2")]⟩ (by decide) (by decide) (by decide) (by decide) (by decide)).1

/-- C6 counterexample: on a failed log append the unlink fails, yet the
branch's in-memory tombstone set *does* record the deletion (the claim says
it is left unchanged). -/
theorem unlink_log_failure_counterexample :
    (add_tombstone { name := "b2", parent := some "main", tombstones := [] }
      ⟨[], [("/x", "v2")]⟩ "/x" false).2.2 = false ∧
    (add_tombstone { name := "b2", parent := some "main", tombstones := [] }
      ⟨[], [("/x", "v2")]⟩ "/x" false).1.tombstones = ["/x"] := by
  decide

/-! ### C7: create_branch validation -/

/-- C7, amended: `create_branch(name, parent)` fails exactly when a branch
with that name is already present or the parent branch is absent; it performs
no validity check on the name itself, so names the spec calls invalid (such
as ones starting with `@`, or `.`/`..`, or containing `/`) are accepted
whenever they are free and the parent exists; on success the branch is added
with the requested parent and base and epoch are untouched. -/
theorem create_branch_spec (m : Mgr) (name parent : String) :
    (containsName m.branches name = true →
      create_branch m name parent = .error (.alreadyExists name)) ∧
    (containsName m.branches name = false → containsName m.branches parent = false →
      create_branch m name parent = .error (.parentNotFound parent)) ∧
    (containsName m.branches name = false → containsName m.branches parent = true →
      ∃ m', create_branch m name parent = .ok m' ∧
        containsName m'.branches name = true ∧
        m'.base = m.base ∧ m'.epoch = m.epoch ∧
        ∃ b, findBranch m' name = some b ∧ b.name = name ∧ b.parent = some parent) := by
  refine ⟨?_, ?_, ?_⟩
  · intro h
    unfold create_branch
    rw [h]
    simp
  · intro h1 h2
    unfold create_branch
    rw [h1, h2]
    simp
  · intro h1 h2
    unfold create_branch
    rw [h1, h2]
    simp only [Bool.false_eq_true, if_false, Bool.not_true]
    refine ⟨_, rfl, ?_, rfl, rfl, ?_⟩
    · rw [containsName_iff]
      exact ⟨(branchNew m.disk name (some parent)).1, by simp,
        (branchNew_fst m.disk name (some parent)).1⟩
    · refine ⟨(branchNew m.disk name (some parent)).1, ?_,
        (branchNew_fst m.disk name (some parent)).1, (branchNew_fst m.disk name (some parent)).2⟩
      unfold findBranch
      simp only
      have hnone : m.branches.find? (fun b => b.name == name) = none := by
        rw [List.find?_eq_none]
        intro x hx
        simp only [beq_iff_eq]
        intro hcon
        have hc : containsName m.branches name = true := (containsName_iff _ _).2 ⟨x, hx, hcon⟩
        rw [hc] at h1
        cases h1
      rw [find?_append_none hnone]
      simp [(branchNew_fst m.disk name (some parent)).1]

/-- C7 witness. -/
theorem create_branch_spec_witness :
    ∃ m', create_branch (mgrInit []) "x" "main" = .ok m' ∧
      containsName m'.branches "x" = true := by
  obtain ⟨m', h1, h2, -⟩ := (create_branch_spec (mgrInit []) "x" "main").2.2 (by decide) (by decide)
  exact ⟨m', h1, h2⟩

/-- C7 counterexample: a name starting with `@` — invalid per the spec — is
accepted by `create_branch` when free and with an existing parent. -/
theorem create_branch_claim_counterexample :
    isPfxOf "@" "@evil" = true ∧
    ∃ m', create_branch (mgrInit []) "@evil" "main" = .ok m' := by
  exact ⟨by decide, _, rfl⟩

/-! ### C8: reserved inode numbers and allocation ranges -/

/-- C8, amended: `ROOT = 1` and `ROOT_CTL = 2^64 − 2` hold, but branch-ctl
inode numbers are allocated *upward* by `fetch_add` starting from
`u64::MAX − 10^6 = 2^64 − 10^6 − 1` (not downward from `2^64 − 10^6`), and
while the control files never enter the regular dense inode table, a virtual
`@branch` directory *does* receive its number from the regular dense
allocator via `get_or_create`. -/
theorem inode_ranges_spec (v : FsView) (m : Mgr) (branch : String) :
    ROOT_INO = 1 ∧ CTL_INO = 2 ^ 64 - 2 ∧ CTL_START = 2 ^ 64 - 1000000 - 1 ∧
    (v.branchCtlInodes.find? (fun e => e.1 == branch) = none →
      (get_or_create_branch_ctl_ino v branch).1 = v.nextCtlIno ∧
      (get_or_create_branch_ctl_ino v branch).2.nextCtlIno = (v.nextCtlIno + 1) % U64_MOD ∧
      (get_or_create_branch_ctl_ino v branch).2.inodes = v.inodes) ∧
    (containsName m.branches branch = true →
     v.inodes.pathToIno.find? (fun e => e.1 == ("/@" ++ branch)) = none →
      ∃ v', lookupBranchDirIno m v branch = .ok (v.inodes.nextIno, v') ∧
        v'.inodes.nextIno = (v.inodes.nextIno + 1) % U64_MOD) := by
  refine ⟨rfl, by norm_num [CTL_INO, U64_MOD], by norm_num [CTL_START, U64_MOD], ?_, ?_⟩
  · intro h
    unfold get_or_create_branch_ctl_ino
    rw [h]
    exact ⟨rfl, rfl, rfl⟩
  · intro h1 h2
    unfold lookupBranchDirIno
    rw [h1]
    unfold InodeState.get_or_create
    rw [h2]
    exact ⟨_, rfl, rfl⟩

/-- C8 witness. -/
theorem inode_ranges_spec_witness :
    (get_or_create_branch_ctl_ino (fsNew (mgrInit []) "main") "a").1 =
      (fsNew (mgrInit []) "main").nextCtlIno ∧
    ∃ v', lookupBranchDirIno (mgrInit []) (fsNew (mgrInit []) "main") "main" = .ok (2, v') := by
  refine ⟨((inode_ranges_spec (fsNew (mgrInit []) "main") (mgrInit []) "a").2.2.2.1 rfl).1, ?_⟩
  obtain ⟨v', hv, -⟩ :=
    (inode_ranges_spec (fsNew (mgrInit []) "main") (mgrInit []) "main").2.2.2.2
      (by decide) (by decide)
  exact ⟨v', hv⟩

/-- C8 counterexample: the first two branch-ctl allocations on a fresh mount
give `2^64 − 10^6 − 1` and then one *more*, not less (upward allocation, off
by one from the claimed start), and a valid `@branch` directory looked up at
the root receives inode `2`, squarely inside the regular dense range. -/
theorem inode_ranges_claim_counterexample :
    (get_or_create_branch_ctl_ino (fsNew (mgrInit []) "main") "a").1 = 2 ^ 64 - 1000001 ∧
    (get_or_create_branch_ctl_ino
      (get_or_create_branch_ctl_ino (fsNew (mgrInit []) "main") "a").2 "b").1 =
      2 ^ 64 - 1000001 + 1 ∧
    (∃ v', lookupBranchDirIno (mgrInit []) (fsNew (mgrInit []) "main") "main" = .ok (2, v')) ∧
    (2 ^ 64 - 1000001 : Nat) ≠ 2 ^ 64 - 1000000 := by
  refine ⟨by decide, by decide, ⟨_, rfl⟩, by decide⟩

/-! ### C2: the resolution walk -/

theorem resolveWalk_eq_chain (m : Mgr) (rel : String) :
    ∀ (fuel : Nat) (cur : String) (ch : List Branch),
      chainGo m fuel cur = some ch →
      resolveWalk m rel fuel cur = .ok (chainResolve m ch rel) := by
  intro fuel
  induction fuel with
  | zero => intro cur ch h; cases h
  | succ f ih =>
    intro cur ch h
    cases hfb : findBranch m cur with
    | none =>
      simp only [chainGo, hfb] at h
      exact Option.noConfusion h
    | some b =>
      simp only [chainGo, hfb] at h
      simp only [resolveWalk, hfb]
      cases hp : b.parent with
      | none =>
        simp only [hp] at h
        injection h with h
        subst h
        by_cases hd : b.is_deleted rel
        · simp [chainResolve, hd]
        · by_cases hdel : m.has_delta b.name rel
          · simp [chainResolve, hd, hdel]
          · simp only [chainResolve, hd, hdel, Bool.false_eq_true, if_false, hp]
            by_cases hbase : m.baseExists rel <;> simp [hbase]
      | some p =>
        simp only [hp] at h
        cases hrec : chainGo m f p with
        | none => rw [hrec] at h; exact Option.noConfusion h
        | some ch' =>
          rw [hrec] at h
          injection h with h
          subst h
          by_cases hd : b.is_deleted rel
          · simp [chainResolve, hd]
          · by_cases hdel : m.has_delta b.name rel
            · simp [chainResolve, hd, hdel]
            · simp only [chainResolve, hd, hdel, Bool.false_eq_true, if_false, hp]
              exact ih p ch' hrec

theorem chainResolve_append_root (m : Mgr) (rel : String) (front : List Branch) (root : Branch)
    (hd : root.is_deleted rel = false) (hdel : m.has_delta root.name rel = false) :
    chainResolve m (front ++ [root]) rel = chainResolve m front rel := by
  induction front with
  | nil => simp [chainResolve, hd, hdel]
  | cons x xs ih =>
    show (if x.is_deleted rel = true then none
        else if m.has_delta x.name rel = true then some (StoragePath.delta x.name rel)
        else chainResolve m (xs ++ [root]) rel) =
      (if x.is_deleted rel = true then none
        else if m.has_delta x.name rel = true then some (StoragePath.delta x.name rel)
        else chainResolve m xs rel)
    rw [ih]

/-- C2: `resolve_path(branch, rel)` walks from `branch` toward the root as the
spec describes — at each node a tombstone for `rel` gives absent, else a delta
gives that delta path, else the parent is next; past `main` (which, per the
data model, has an empty delta directory and an unused tombstone set) the base
decides.  In particular a `rel` in the starting branch's own tombstone set
resolves to absent. -/
theorem resolve_path_spec (m : Mgr) (bname rel : String) (ch front : List Branch) (root : Branch)
    (hch : get_branch_chain m bname = some ch)
    (hsplit : ch = front ++ [root])
    (hrootName : root.name = "main")
    (hrootTomb : root.tombstones = [])
    (hrootDelta : m.deltaFilesOf "main" = [])
    (hrel : rel ≠ "/") :
    resolve_path m bname rel = .ok (chainResolve m front rel) ∧
    (∀ b0 rest, ch = b0 :: rest → b0.is_deleted rel = true →
      resolve_path m bname rel = .ok none) := by
  have hmain := resolveWalk_eq_chain m rel (m.branches.length + 1) bname ch hch
  have hd : root.is_deleted rel = false := by
    simp [Branch.is_deleted, hrootTomb]
  have hdel : m.has_delta root.name rel = false := by
    rw [hrootName]
    unfold Mgr.has_delta treeExists
    rw [hrootDelta]
    simp [hrel]
  constructor
  · rw [resolve_path, hmain, hsplit, chainResolve_append_root m rel front root hd hdel]
  · intro b0 rest hcons htomb
    rw [resolve_path, hmain, hcons]
    simp [chainResolve, htomb]

/-- C2 witness: a one-branch chain over `main`, a delta at `/x`, a tombstone
at `/y`. -/
theorem resolve_path_spec_witness :
    resolve_path
      { branches := [{ name := "main", parent := none, tombstones := [] },
                     { name := "b1", parent := some "main", tombstones := ["/y"] }]
        disk := [("main", ⟨[], []⟩), ("b1", ⟨[], [("/x", "vx")]⟩)]
        base := [("/y", "vy")]
        epoch := 0 } "b1" "/y" = .ok none := by
  exact (resolve_path_spec
    { branches := [{ name := "main", parent := none, tombstones := [] },
                   { name := "b1", parent := some "main", tombstones := ["/y"] }]
      disk := [("main", ⟨[], []⟩), ("b1", ⟨[], [("/x", "vx")]⟩)]
      base := [("/y", "vy")]
      epoch := 0 } "b1" "/y"
    [{ name := "b1", parent := some "main", tombstones := ["/y"] },
     { name := "main", parent := none, tombstones := [] }]
    [{ name := "b1", parent := some "main", tombstones := ["/y"] }]
    { name := "main", parent := none, tombstones := [] }
    rfl rfl rfl rfl rfl (by decide)).2
    { name := "b1", parent := some "main", tombstones := ["/y"] }
    [{ name := "main", parent := none, tombstones := [] }]
    rfl (by decide)

/-! ### C10: readdir ignores tombstones, lookup honours them -/

theorem readdirPass_cons_seen (branch relPath : String) (tree : List (String × String))
    (x : String) (xs seen : List String) (entries : List (Nat × Bool × String))
    (st : InodeState) (hx : x ∈ seen) :
    readdirPass branch relPath tree (x :: xs) seen entries st =
      readdirPass branch relPath tree xs seen entries st := by
  simp [readdirPass, hx]

theorem readdirPass_cons_fresh (branch relPath : String) (tree : List (String × String))
    (x : String) (xs seen : List String) (entries : List (Nat × Bool × String))
    (st : InodeState) (hx : x ∉ seen) :
    readdirPass branch relPath tree (x :: xs) seen entries st =
      readdirPass branch relPath tree xs (seen ++ [x])
        (entries ++ [((st.get_or_create ("/@" ++ branch ++ childRelOf relPath x)
          (isDirIn tree (childRelOf relPath x))).1,
          isDirIn tree (childRelOf relPath x), x)])
        (st.get_or_create ("/@" ++ branch ++ childRelOf relPath x)
          (isDirIn tree (childRelOf relPath x))).2 := by
  simp [readdirPass, hx]

theorem readdirPass_mem (branch relPath : String) (tree : List (String × String)) :
    ∀ (ns seen : List String) (entries : List (Nat × Bool × String)) (st : InodeState)
      (n : String),
      (n ∈ ns ∨ n ∈ entries.map (fun e => e.2.2)) →
      (∀ x ∈ seen, x ∈ entries.map (fun e => e.2.2)) →
      n ∈ (readdirPass branch relPath tree ns seen entries st).2.1.map (fun e => e.2.2) := by
  intro ns
  induction ns with
  | nil =>
    intro seen entries st n hn hseen
    rcases hn with h | h
    · cases h
    · simpa [readdirPass] using h
  | cons x xs ih =>
    intro seen entries st n hn hseen
    by_cases hx : x ∈ seen
    · rw [readdirPass_cons_seen branch relPath tree x xs seen entries st hx]
      apply ih seen entries st n ?_ hseen
      rcases hn with h | h
      · rcases List.mem_cons.1 h with h | h
        · subst h
          exact .inr (hseen _ hx)
        · exact .inl h
      · exact .inr h
    · rw [readdirPass_cons_fresh branch relPath tree x xs seen entries st hx]
      apply ih _ _ _ n ?_ ?_
      · rcases hn with h | h
        · rcases List.mem_cons.1 h with h | h
          · subst h
            right
            simp
          · exact .inl h
        · right
          simp only [List.map_append]
          exact List.mem_append_left _ h
      · intro y hy
        simp only [List.map_append]
        rcases List.mem_append.1 hy with h | h
        · exact List.mem_append_left _ (hseen y h)
        · simp only [List.mem_singleton] at h
          subst h
          apply List.mem_append_right
          simp

theorem readdirPass_seen_sub (branch relPath : String) (tree : List (String × String)) :
    ∀ (ns seen : List String) (entries : List (Nat × Bool × String)) (st : InodeState),
      (∀ x ∈ seen, x ∈ entries.map (fun e => e.2.2)) →
      ∀ x ∈ (readdirPass branch relPath tree ns seen entries st).1,
        x ∈ (readdirPass branch relPath tree ns seen entries st).2.1.map (fun e => e.2.2) := by
  intro ns
  induction ns with
  | nil =>
    intro seen entries st hseen x hx
    simp only [readdirPass] at hx ⊢
    exact hseen x hx
  | cons y ys ih =>
    intro seen entries st hseen x hx
    by_cases hy : y ∈ seen
    · rw [readdirPass_cons_seen branch relPath tree y ys seen entries st hy] at hx ⊢
      exact ih seen entries st hseen x hx
    · rw [readdirPass_cons_fresh branch relPath tree y ys seen entries st hy] at hx ⊢
      apply ih _ _ _ ?_ x hx
      intro z hz
      simp only [List.map_append]
      rcases List.mem_append.1 hz with h | h
      · exact List.mem_append_left _ (hseen z h)
      · simp only [List.mem_singleton] at h
        subst h
        apply List.mem_append_right
        simp

/-- C10: `readdir` on a branch directory lists every entry of the
corresponding base directory without ever consulting the tombstone set for
the entries, so a file removed by `unlink` (or hidden by an ancestor's
tombstone — any child whose path resolves to absent) still appears in the
listing while `lookup` of the same name returns `ENOENT`. -/
theorem readdir_tombstone_spec (m : Mgr) (v : FsView) (branch relPath name : String) (ino : Nat)
    (hvalid : containsName m.branches branch = true)
    (hbase : name ∈ rawNames m.base relPath)
    (habs : resolve_path m branch (childRelOf relPath name) = .ok none) :
    (∃ es v', readdirBranch m v branch relPath ino = .ok (es, v') ∧
      name ∈ es.map (fun e => e.2.2)) ∧
    lookupBranchChild m v branch relPath name = .error .enoent := by
  constructor
  · refine ⟨(collect_branch_readdir_entries m v branch relPath ino).1,
      (collect_branch_readdir_entries m v branch relPath ino).2, ?_, ?_⟩
    · unfold readdirBranch
      rw [hvalid]
      rfl
    · unfold collect_branch_readdir_entries
      split
    -- the resolved-delta arm runs a second pass over the delta directory
      · apply readdirPass_mem
        · right
          apply readdirPass_mem
          · exact .inl hbase
          · intro x hx
            cases hx
        · apply readdirPass_seen_sub
          intro x hx
          cases hx
      · apply readdirPass_mem
        · exact .inl hbase
        · intro x hx
          cases hx
  · unfold lookupBranchChild
    rw [hvalid]
    simp only [Bool.not_true, Bool.false_eq_true, if_false, habs]

/-- C10 witness: base holds `/d/f`; branch `b1` tombstones `/d/f`; `readdir`
of `/d` through `b1` still lists `f` while `lookup` of `f` is `ENOENT`. -/
theorem readdir_tombstone_spec_witness :
    (∃ es v', readdirBranch
      { branches := [{ name := "main", parent := none, tombstones := [] },
                     { name := "b1", parent := some "main", tombstones := ["/d/f"] }]
        disk := [("main", ⟨[], []⟩), ("b1", ⟨["/d/f"], []⟩)]
        base := [("/d/f", "hello")]
        epoch := 0 } (fsNew (mgrInit []) "b1") "b1" "/d" 2 = .ok (es, v') ∧
      "f" ∈ es.map (fun e => e.2.2)) ∧
    lookupBranchChild
      { branches := [{ name := "main", parent := none, tombstones := [] },
                     { name := "b1", parent := some "main", tombstones := ["/d/f"] }]
        disk := [("main", ⟨[], []⟩), ("b1", ⟨["/d/f"], []⟩)]
        base := [("/d/f", "hello")]
        epoch := 0 } (fsNew (mgrInit []) "b1") "b1" "/d" "f" = .error .enoent := by
  exact readdir_tombstone_spec
    { branches := [{ name := "main", parent := none, tombstones := [] },
                   { name := "b1", parent := some "main", tombstones := ["/d/f"] }]
      disk := [("main", ⟨[], []⟩), ("b1", ⟨["/d/f"], []⟩)]
      base := [("/d/f", "hello")]
      epoch := 0 } (fsNew (mgrInit []) "b1") "b1" "/d" "f" 2
    (by decide) (by decide) (by decide)

/-! ### C9: the path classifier -/

theorem toList_append (s t : String) : (s ++ t).toList = s.toList ++ t.toList := rfl

theorem mk_toList (s : String) : String.mk s.toList = s := rfl

theorem toList_inj {s t : String} (h : s.toList = t.toList) : s = t := by
  cases s
  cases t
  cases h
  rfl

theorem findSlashSplit_none (l : List Char) (h : '/' ∉ l) : findSlashSplit l = none := by
  induction l with
  | nil => rfl
  | cons c cs ih =>
    have hc : ¬ (c = '/') := fun hc => by subst hc; exact h (List.mem_cons_self _ _)
    unfold findSlashSplit
    rw [if_neg hc, ih (fun hm => h (List.mem_cons_of_mem c hm))]
    rfl

theorem findSlashSplit_append (name rest : List Char) (h : '/' ∉ name) :
    findSlashSplit (name ++ '/' :: rest) = some (name, '/' :: rest) := by
  induction name with
  | nil => simp [findSlashSplit]
  | cons c cs ih =>
    have hc : ¬ (c = '/') := fun hc => by subst hc; exact h (List.mem_cons_self _ _)
    simp only [List.cons_append]
    unfold findSlashSplit
    rw [if_neg hc, ih (fun hm => h (List.mem_cons_of_mem c hm))]
    rfl

theorem findSlashSplit_parts :
    ∀ (l : List Char) {p : List Char × List Char}, findSlashSplit l = some p →
      l = p.1 ++ p.2 := by
  intro l
  induction l with
  | nil => intro p h; cases h
  | cons c cs ih =>
    intro p h
    unfold findSlashSplit at h
    by_cases hc : c = '/'
    · rw [if_pos hc] at h
      injection h with h
      subst h
      rfl
    · rw [if_neg hc] at h
      cases hsp : findSlashSplit cs with
      | none => rw [hsp] at h; exact Option.noConfusion h
      | some q =>
        rw [hsp] at h
        injection h with h
        subst h
        simp only [List.cons_append]
        rw [← ih hsp]

theorem classifyGo_step (body : List Char) (fuel : Nat) :
    classifyGo (fuel+1) ('/' :: '@' :: body) =
      (match findSlashSplit body with
       | some br =>
         if br.2.take 2 = ['/', '@'] then classifyGo fuel br.2
         else if br.2 = '/' :: ".branchfs_ctl".toList then .branchCtl (String.mk br.1)
         else .branchPath (String.mk br.1) (String.mk br.2)
       | none => .branchDir (String.mk body)) := by
  conv_lhs => unfold classifyGo
  rw [if_neg (by simp),
    if_pos (show List.take 2 ('/' :: '@' :: body) = ['/', '@'] from rfl)]
  rfl

theorem classifyGo_fuel : ∀ (f1 : Nat) (l : List Char) (f2 : Nat),
    l.length < f1 → l.length < f2 → classifyGo f1 l = classifyGo f2 l := by
  intro f1
  induction f1 with
  | zero =>
    intro l f2 h1 _
    exact absurd h1 (Nat.not_lt_zero _)
  | succ f ih =>
    intro l f2 h1 h2
    cases f2 with
    | zero => exact absurd h2 (Nat.not_lt_zero _)
    | succ g =>
      unfold classifyGo
      by_cases hp : l = ['/']
      · rw [if_pos hp, if_pos hp]
      · rw [if_neg hp, if_neg hp]
        by_cases hs : l.take 2 = ['/', '@']
        · rw [if_pos hs, if_pos hs]
          cases hsp : findSlashSplit (l.drop 2) with
          | none => rfl
          | some br =>
            show (if br.2.take 2 = ['/', '@'] then classifyGo f br.2
                else if br.2 = '/' :: ".branchfs_ctl".toList then .branchCtl (String.mk br.1)
                else .branchPath (String.mk br.1) (String.mk br.2)) =
              (if br.2.take 2 = ['/', '@'] then classifyGo g br.2
                else if br.2 = '/' :: ".branchfs_ctl".toList then .branchCtl (String.mk br.1)
                else .branchPath (String.mk br.1) (String.mk br.2))
            by_cases hb : br.2.take 2 = ['/', '@']
            · rw [if_pos hb, if_pos hb]
              have hparts := findSlashSplit_parts (l.drop 2) hsp
              have hlen2 : (l.drop 2).length = br.1.length + br.2.length := by
                rw [hparts]
                simp
              have hge : 2 ≤ l.length := by
                have hl := congrArg List.length hs
                simp only [List.length_take, List.length_cons, List.length_nil] at hl
                omega
              have hdl : (l.drop 2).length = l.length - 2 := by simp
              exact ih br.2 g (by omega) (by omega)
            · rw [if_neg hb, if_neg hb]
        · rw [if_neg hs, if_neg hs]

/-- C9, amended: the path classifier maps `/` to the root category, `/@name`
(no `/` in the name, nothing following) to `BranchDir(name)`,
`/@name/.branchfs_ctl` to `BranchCtl(name)`, any other `/@name/rel` to
`BranchPath(name, rel)`, nested `/@a/@b/...` the same as `/@b/...`, and every
other path — *including* `/.branchfs_ctl` — to `RootPath`; the `RootCtl`
category is produced by `classify_ino` for the reserved control inode, not by
the path classifier. -/
theorem classify_path_spec :
    classify_path "/" = .rootPath "/" ∧
    classify_path "/.branchfs_ctl" = .rootPath "/.branchfs_ctl" ∧
    (∀ v : FsView, classify_ino v CTL_INO = some .rootCtl) ∧
    (∀ name : String, '/' ∉ name.toList →
      classify_path ("/@" ++ name) = .branchDir name) ∧
    (∀ name : String, '/' ∉ name.toList →
      classify_path ("/@" ++ name ++ "/.branchfs_ctl") = .branchCtl name) ∧
    (∀ name rel : String, '/' ∉ name.toList →
      rel.toList.take 1 = ['/'] → rel.toList.take 2 ≠ ['/', '@'] →
      rel ≠ "/.branchfs_ctl" →
      classify_path ("/@" ++ name ++ rel) = .branchPath name rel) ∧
    (∀ name rest : String, '/' ∉ name.toList →
      rest.toList.take 2 = ['/', '@'] →
      classify_path ("/@" ++ name ++ rest) = classify_path rest) ∧
    (∀ p : String, p ≠ "/" → p.toList.take 2 ≠ ['/', '@'] →
      classify_path p = .rootPath p) := by
  refine ⟨rfl, rfl, ?_, ?_, ?_, ?_, ?_, ?_⟩
  · intro v
    unfold classify_ino
    rw [if_neg (by decide), if_pos (by decide)]
  · intro name hn
    show classifyGo (('/' :: '@' :: name.toList).length + 1) ('/' :: '@' :: name.toList) =
      .branchDir name
    rw [classifyGo_step]
    simp only [findSlashSplit_none name.toList hn]
    rw [mk_toList]
  · intro name hn
    show classifyGo
      (('/' :: '@' :: (name.toList ++ '/' :: ".branchfs_ctl".toList)).length + 1)
      ('/' :: '@' :: (name.toList ++ '/' :: ".branchfs_ctl".toList)) = .branchCtl name
    rw [classifyGo_step]
    simp only [findSlashSplit_append name.toList (".branchfs_ctl".toList) hn]
    simp [mk_toList]
  · intro name rel hn h1 h2 h3
    obtain ⟨tail, htail⟩ : ∃ tail, rel.toList = '/' :: tail := by
      cases hrl : rel.toList with
      | nil => rw [hrl] at h1; cases h1
      | cons a t =>
        rw [hrl] at h1
        simp only [List.take_succ_cons, List.take_zero] at h1
        injection h1 with h1 _
        exact ⟨t, by rw [h1]⟩
    show classifyGo (('/' :: '@' :: (name.toList ++ rel.toList)).length + 1)
      ('/' :: '@' :: (name.toList ++ rel.toList)) = .branchPath name rel
    rw [classifyGo_step, htail]
    simp only [findSlashSplit_append name.toList tail hn]
    rw [if_neg (by rw [← htail]; exact h2)]
    rw [if_neg (by
      rw [← htail]
      intro hcon
      exact h3 (toList_inj (hcon.trans rfl)))]
    rw [← htail, mk_toList, mk_toList]
  · intro name rest hn hr
    obtain ⟨tail, htail⟩ : ∃ tail, rest.toList = '/' :: tail := by
      cases hrl : rest.toList with
      | nil => rw [hrl] at hr; cases hr
      | cons a t =>
        rw [hrl] at hr
        cases t with
        | nil => simp at hr
        | cons a2 t2 =>
          simp only [List.take_succ_cons, List.take_zero] at hr
          injection hr with hr _
          exact ⟨a2 :: t2, by rw [hr]⟩
    show classifyGo (('/' :: '@' :: (name.toList ++ rest.toList)).length + 1)
      ('/' :: '@' :: (name.toList ++ rest.toList)) = classify_path rest
    rw [classifyGo_step, htail]
    simp only [findSlashSplit_append name.toList tail hn]
    rw [if_pos (by rw [← htail]; exact hr)]
    rw [← htail]
    rw [classify_path]
    apply classifyGo_fuel
    · simp only [List.length_cons, List.length_append]
      omega
    · omega
  · intro p hp hp2
    show classifyGo (p.toList.length + 1) p.toList = .rootPath p
    unfold classifyGo
    rw [if_neg (fun hcon => hp (toList_inj (hcon.trans rfl)))]
    rw [if_neg hp2]
    rw [mk_toList]

/-- C9 witness. -/
theorem classify_path_spec_witness :
    classify_path ("/@" ++ "work") = .branchDir "work" ∧
    classify_path ("/@" ++ "a" ++ "/@b/c") = classify_path "/@b/c" := by
  exact ⟨classify_path_spec.2.2.2.1 "work" (by decide),
         classify_path_spec.2.2.2.2.2.2.1 "a" "/@b/c" (by decide) (by decide)⟩

/-- C9 counterexample: the path classifier sends `/.branchfs_ctl` to
`RootPath`, never to `RootCtl` as the claim states. -/
theorem classify_path_claim_counterexample :
    classify_path "/.branchfs_ctl" = .rootPath "/.branchfs_ctl" ∧
    PathContext.rootPath "/.branchfs_ctl" ≠ PathContext.rootCtl := by
  exact ⟨rfl, by decide⟩

/-! ### C1: commit — characterising `collect_changes` -/

theorem contains_of_mem {l : List String} {a : String} (h : a ∈ l) :
    l.contains a = true := by
  simpa using h

theorem contains_false_of_not_mem {l : List String} {a : String} (h : a ∉ l) :
    l.contains a = false := by
  simpa using h

theorem is_deleted_iff (b : Branch) (rel : String) :
    b.is_deleted rel = true ↔ rel ∈ b.tombstones := by
  simp [Branch.is_deleted]

theorem hasFileAt_iff (m : Mgr) (bn rel : String) :
    hasFileAt m bn rel = true ↔ rel ∈ (m.deltaFilesOf bn).map (fun f => f.1) := by
  simp [hasFileAt, List.any_eq_true, List.mem_map]

theorem collectDels_mem (ts : List String) :
    ∀ (acc : List String) (p : String),
      p ∈ collectDels acc ts ↔ (p ∈ acc ∨ p ∈ ts) := by
  induction ts with
  | nil => intro acc p; simp [collectDels]
  | cons t ts ih =>
    intro acc p
    show p ∈ collectDels (if acc.contains t then acc else acc ++ [t]) ts ↔
      (p ∈ acc ∨ p ∈ t :: ts)
    rw [ih]
    by_cases h : t ∈ acc
    · rw [if_pos (contains_of_mem h)]
      constructor
      · rintro (h1 | h1)
        · exact .inl h1
        · exact .inr (List.mem_cons_of_mem t h1)
      · rintro (h1 | h1)
        · exact .inl h1
        · rcases List.mem_cons.1 h1 with h2 | h2
          · subst h2
            exact .inl h
          · exact .inr h2
    · rw [if_neg (by simpa using h)]
      constructor
      · rintro (h1 | h1)
        · rcases List.mem_append.1 h1 with h2 | h2
          · exact .inl h2
          · rw [List.mem_singleton] at h2
            subst h2
            exact .inr (List.mem_cons_self _ _)
        · exact .inr (List.mem_cons_of_mem t h1)
      · rintro (h1 | h1)
        · exact .inl (List.mem_append.2 (.inl h1))
        · rcases List.mem_cons.1 h1 with h2 | h2
          · subst h2
            exact .inl (List.mem_append.2 (.inr (List.mem_singleton.2 rfl)))
          · exact .inr h2

theorem addFiles_cons_skip (dels : List String) (bn : String) (f : String × String)
    (fs : List (String × String)) (seen : List String) (files : List (String × String))
    (h : f.1 ∈ seen ∨ f.1 ∈ dels) :
    addFiles dels bn (f :: fs) seen files = addFiles dels bn fs seen files := by
  have hc : (seen.contains f.1 || dels.contains f.1) = true := by
    rcases h with h | h
    · rw [contains_of_mem h, Bool.true_or]
    · rw [contains_of_mem h, Bool.or_true]
  show (if seen.contains f.1 || dels.contains f.1 then addFiles dels bn fs seen files
    else addFiles dels bn fs (seen ++ [f.1]) (files ++ [(f.1, bn)])) =
      addFiles dels bn fs seen files
  rw [if_pos hc]

theorem addFiles_cons_fresh (dels : List String) (bn : String) (f : String × String)
    (fs : List (String × String)) (seen : List String) (files : List (String × String))
    (h1 : f.1 ∉ seen) (h2 : f.1 ∉ dels) :
    addFiles dels bn (f :: fs) seen files =
      addFiles dels bn fs (seen ++ [f.1]) (files ++ [(f.1, bn)]) := by
  have hc : (seen.contains f.1 || dels.contains f.1) = false := by
    rw [contains_false_of_not_mem h1, contains_false_of_not_mem h2]
    rfl
  show (if seen.contains f.1 || dels.contains f.1 then addFiles dels bn fs seen files
    else addFiles dels bn fs (seen ++ [f.1]) (files ++ [(f.1, bn)])) =
      addFiles dels bn fs (seen ++ [f.1]) (files ++ [(f.1, bn)])
  rw [if_neg (by rw [hc]; decide)]

theorem addFiles_spec (dels : List String) (bn : String) :
    ∀ (fs : List (String × String)) (seen : List String) (files : List (String × String)),
      seen = files.map (fun q => q.1) →
      (addFiles dels bn fs seen files).1 =
        ((addFiles dels bn fs seen files).2).map (fun q => q.1) ∧
      ((files.map (fun q => q.1)).Nodup →
        (((addFiles dels bn fs seen files).2).map (fun q => q.1)).Nodup) ∧
      (∀ q : String × String, q ∈ (addFiles dels bn fs seen files).2 ↔
        (q ∈ files ∨ (q.2 = bn ∧ q.1 ∈ fs.map (fun f => f.1) ∧ q.1 ∉ seen ∧ q.1 ∉ dels))) ∧
      (∀ k : String, k ∈ (addFiles dels bn fs seen files).1 ↔
        (k ∈ seen ∨ (k ∈ fs.map (fun f => f.1) ∧ k ∉ dels))) := by
  intro fs
  induction fs with
  | nil =>
    intro seen files hseen
    refine ⟨hseen, fun h => h, ?_, ?_⟩
    · intro q; simp [addFiles]
    · intro k; simp [addFiles]
  | cons f fs ih =>
    intro seen files hseen
    by_cases hskip : f.1 ∈ seen ∨ f.1 ∈ dels
    · rw [addFiles_cons_skip dels bn f fs seen files hskip]
      obtain ⟨h1, h2, h3, h4⟩ := ih seen files hseen
      refine ⟨h1, h2, ?_, ?_⟩
      · intro q
        rw [h3 q]
        constructor
        · rintro (hq | ⟨ha, hb, hc, hd⟩)
          · exact .inl hq
          · refine .inr ⟨ha, ?_, hc, hd⟩
            rw [List.map_cons]
            exact List.mem_cons_of_mem _ hb
        · rintro (hq | ⟨ha, hb, hc, hd⟩)
          · exact .inl hq
          · rw [List.map_cons] at hb
            rcases List.mem_cons.1 hb with h5 | h5
            · rcases hskip with h6 | h6
              · exact absurd (show q.1 ∈ seen by rw [h5]; exact h6) hc
              · exact absurd (show q.1 ∈ dels by rw [h5]; exact h6) hd
            · exact .inr ⟨ha, h5, hc, hd⟩
      · intro k
        rw [h4 k]
        constructor
        · rintro (hk | ⟨ha, hb⟩)
          · exact .inl hk
          · refine .inr ⟨?_, hb⟩
            rw [List.map_cons]
            exact List.mem_cons_of_mem _ ha
        · rintro (hk | ⟨ha, hb⟩)
          · exact .inl hk
          · rw [List.map_cons] at ha
            rcases List.mem_cons.1 ha with h5 | h5
            · rcases hskip with h6 | h6
              · exact .inl (show k ∈ seen by rw [h5]; exact h6)
              · exact absurd (show k ∈ dels by rw [h5]; exact h6) hb
            · exact .inr ⟨h5, hb⟩
    · push_neg at hskip
      obtain ⟨hns, hnd⟩ := hskip
      rw [addFiles_cons_fresh dels bn f fs seen files hns hnd]
      have hseen' : seen ++ [f.1] = (files ++ [(f.1, bn)]).map (fun q => q.1) := by
        rw [List.map_append, hseen]
        rfl
      obtain ⟨h1, h2, h3, h4⟩ := ih (seen ++ [f.1]) (files ++ [(f.1, bn)]) hseen'
      refine ⟨h1, ?_, ?_, ?_⟩
      · intro hnod
        apply h2
        rw [List.map_append]
        simp only [List.map_cons, List.map_nil]
        rw [List.nodup_append]
        refine ⟨hnod, List.nodup_singleton _, ?_⟩
        intro a ha hb
        rw [List.mem_singleton] at hb
        subst hb
        rw [← hseen] at ha
        exact hns ha
      · intro q
        rw [h3 q]
        constructor
        · rintro (hq | ⟨ha, hb, hc, hd⟩)
          · rcases List.mem_append.1 hq with h5 | h5
            · exact .inl h5
            · rw [List.mem_singleton] at h5
              refine .inr ⟨?_, ?_, ?_, ?_⟩
              · rw [h5]
              · rw [h5, List.map_cons]
                exact List.mem_cons_self _ _
              · rw [h5]
                exact hns
              · rw [h5]
                exact hnd
          · have hc1 : q.1 ∉ seen := fun h => hc (List.mem_append.2 (.inl h))
            refine .inr ⟨ha, ?_, hc1, hd⟩
            rw [List.map_cons]
            exact List.mem_cons_of_mem _ hb
        · rintro (hq | ⟨ha, hb, hc, hd⟩)
          · exact .inl (List.mem_append.2 (.inl hq))
          · by_cases hq1 : q.1 = f.1
            · refine .inl (List.mem_append.2 (.inr ?_))
              rw [List.mem_singleton]
              exact Prod.ext_iff.2 ⟨hq1, ha⟩
            · rw [List.map_cons] at hb
              rcases List.mem_cons.1 hb with h5 | h5
              · exact absurd h5 hq1
              · refine .inr ⟨ha, h5, ?_, hd⟩
                intro h6
                rcases List.mem_append.1 h6 with h7 | h7
                · exact hc h7
                · rw [List.mem_singleton] at h7
                  exact hq1 h7
      · intro k
        rw [h4 k]
        constructor
        · rintro (hk | ⟨ha, hb⟩)
          · rcases List.mem_append.1 hk with h5 | h5
            · exact .inl h5
            · rw [List.mem_singleton] at h5
              subst h5
              refine .inr ⟨?_, hnd⟩
              rw [List.map_cons]
              exact List.mem_cons_self _ _
          · refine .inr ⟨?_, hb⟩
            rw [List.map_cons]
            exact List.mem_cons_of_mem _ ha
        · rintro (hk | ⟨ha, hb⟩)
          · exact .inl (List.mem_append.2 (.inl hk))
          · rw [List.map_cons] at ha
            rcases List.mem_cons.1 ha with h5 | h5
            · subst h5
              exact .inl (List.mem_append.2 (.inr (List.mem_singleton.2 rfl)))
            · exact .inr ⟨h5, hb⟩

theorem collectGo_spec (m : Mgr) :
    ∀ (ch : List Branch) (dels seen : List String) (files : List (String × String)),
      seen = files.map (fun q => q.1) →
      (∀ p : String, p ∈ (collectGo m ch dels seen files).1 ↔
        (p ∈ dels ∨ ∃ b ∈ ch, p ∈ b.tombstones)) ∧
      ((files.map (fun q => q.1)).Nodup →
        (((collectGo m ch dels seen files).2).map (fun q => q.1)).Nodup) ∧
      (∀ q : String × String, q ∈ (collectGo m ch dels seen files).2 ↔
        (q ∈ files ∨ (q.1 ∉ seen ∧ q.1 ∉ dels ∧ firstHit m q.1 ch = some q.2))) := by
  intro ch
  induction ch with
  | nil =>
    intro dels seen files hseen
    refine ⟨?_, fun h => h, ?_⟩
    · intro p; simp [collectGo]
    · intro q; simp [collectGo, firstHit]
  | cons b rest ih =>
    intro dels seen files hseen
    have hstep : collectGo m (b :: rest) dels seen files =
        collectGo m rest (collectDels dels b.tombstones)
          (addFiles (collectDels dels b.tombstones) b.name (m.deltaFilesOf b.name) seen files).1
          (addFiles (collectDels dels b.tombstones) b.name (m.deltaFilesOf b.name) seen files).2 :=
      rfl
    rw [hstep]
    obtain ⟨hA1, hA2, hA3, hA4⟩ :=
      addFiles_spec (collectDels dels b.tombstones) b.name (m.deltaFilesOf b.name) seen files hseen
    obtain ⟨hI1, hI2, hI3⟩ := ih (collectDels dels b.tombstones) _ _ hA1
    refine ⟨?_, fun h => hI2 (hA2 h), ?_⟩
    · intro p
      rw [hI1 p, collectDels_mem b.tombstones dels p]
      constructor
      · rintro ((h1 | h1) | ⟨b', hb', ht⟩)
        · exact .inl h1
        · exact .inr ⟨b, List.mem_cons_self _ _, h1⟩
        · exact .inr ⟨b', List.mem_cons_of_mem _ hb', ht⟩
      · rintro (h1 | ⟨b', hb', ht⟩)
        · exact .inl (.inl h1)
        · rcases List.mem_cons.1 hb' with h2 | h2
          · subst h2
            exact .inl (.inr ht)
          · exact .inr ⟨b', h2, ht⟩
    · intro q
      rw [hI3 q, hA3 q]
      have hdelsmem := collectDels_mem b.tombstones dels q.1
      by_cases hs0 : q.1 ∈ seen
      · have hsf1 : q.1 ∈ (addFiles (collectDels dels b.tombstones) b.name
            (m.deltaFilesOf b.name) seen files).1 := (hA4 q.1).2 (.inl hs0)
        constructor
        · rintro ((hq | ⟨_, _, hc, _⟩) | ⟨hns, _, _⟩)
          · exact .inl hq
          · exact absurd hs0 hc
          · exact absurd hsf1 hns
        · rintro (hq | ⟨hc, _, _⟩)
          · exact .inl (.inl hq)
          · exact absurd hs0 hc
      · by_cases hd0 : q.1 ∈ dels
        · have hd' : q.1 ∈ collectDels dels b.tombstones := hdelsmem.2 (.inl hd0)
          constructor
          · rintro ((hq | ⟨_, _, _, hd⟩) | ⟨_, hnd2, _⟩)
            · exact .inl hq
            · exact absurd hd' hd
            · exact absurd hd' hnd2
          · rintro (hq | ⟨_, hc, _⟩)
            · exact .inl (.inl hq)
            · exact absurd hd0 hc
        · by_cases ht0 : q.1 ∈ b.tombstones
          · have hd' : q.1 ∈ collectDels dels b.tombstones := hdelsmem.2 (.inr ht0)
            have hfh : firstHit m q.1 (b :: rest) = none := by
              simp only [firstHit]
              rw [if_pos ((is_deleted_iff b q.1).2 ht0)]
            rw [hfh]
            constructor
            · rintro ((hq | ⟨_, _, _, hd⟩) | ⟨_, hnd2, _⟩)
              · exact .inl hq
              · exact absurd hd' hd
              · exact absurd hd' hnd2
            · rintro (hq | ⟨_, _, hcon⟩)
              · exact .inl (.inl hq)
              · exact Option.noConfusion hcon
          · have hnd' : q.1 ∉ collectDels dels b.tombstones := fun hcmem =>
              (hdelsmem.1 hcmem).elim hd0 ht0
            by_cases hf0 : q.1 ∈ (m.deltaFilesOf b.name).map (fun f => f.1)
            · have hfh : firstHit m q.1 (b :: rest) = some b.name := by
                simp only [firstHit]
                rw [if_neg (fun hcon => ht0 ((is_deleted_iff b q.1).1 hcon)),
                  if_pos ((hasFileAt_iff m b.name q.1).2 hf0)]
              rw [hfh]
              have hsf1 : q.1 ∈ (addFiles (collectDels dels b.tombstones) b.name
                  (m.deltaFilesOf b.name) seen files).1 := (hA4 q.1).2 (.inr ⟨hf0, hnd'⟩)
              constructor
              · rintro ((hq | ⟨ha, _, _, _⟩) | ⟨hns, _, _⟩)
                · exact .inl hq
                · refine .inr ⟨hs0, hd0, ?_⟩
                  rw [ha]
                · exact absurd hsf1 hns
              · rintro (hq | ⟨_, _, hsome⟩)
                · exact .inl (.inl hq)
                · injection hsome with hsome
                  exact .inl (.inr ⟨hsome.symm, hf0, hs0, hnd'⟩)
            · have hfh : firstHit m q.1 (b :: rest) = firstHit m q.1 rest := by
                simp only [firstHit]
                rw [if_neg (fun hcon => ht0 ((is_deleted_iff b q.1).1 hcon)),
                  if_neg (fun hcon => hf0 ((hasFileAt_iff m b.name q.1).1 hcon))]
              rw [hfh]
              have hnsf1 : q.1 ∉ (addFiles (collectDels dels b.tombstones) b.name
                  (m.deltaFilesOf b.name) seen files).1 := fun hcmem =>
                ((hA4 q.1).1 hcmem).elim hs0 (fun hp => hf0 hp.1)
              constructor
              · rintro ((hq | ⟨_, hb2, _, _⟩) | ⟨_, _, hfh2⟩)
                · exact .inl hq
                · exact absurd hb2 hf0
                · exact .inr ⟨hs0, hd0, hfh2⟩
              · rintro (hq | ⟨_, _, hfh2⟩)
                · exact .inl (.inl hq)
                · exact .inr ⟨hnsf1, hnd', hfh2⟩

/-! ### C1: base mutation under deletions and copies -/

theorem find?_filter_of_imp {α : Type} (l : List α) (q pred : α → Bool)
    (h : ∀ x, pred x = true → q x = true) :
    (l.filter q).find? pred = l.find? pred := by
  induction l with
  | nil => rfl
  | cons x xs ih =>
    by_cases hq : q x = true
    · rw [List.filter_cons_of_pos hq]
      cases hpred : pred x
      · rw [List.find?_cons_of_neg _ (by rw [hpred]; decide),
          List.find?_cons_of_neg _ (by rw [hpred]; decide)]
        exact ih
      · rw [List.find?_cons_of_pos _ hpred, List.find?_cons_of_pos _ hpred]
    · have hpred : ¬ pred x = true := fun hp => hq (h x hp)
      rw [List.filter_cons_of_neg hq, List.find?_cons_of_neg _ hpred]
      exact ih

theorem find?_append_some {α : Type} {l₁ l₂ : List α} {p : α → Bool} {e : α}
    (h : l₁.find? p = some e) : (l₁ ++ l₂).find? p = some e := by
  induction l₁ with
  | nil => cases h
  | cons x xs ih =>
    cases hp : p x
    · rw [List.find?_cons_of_neg _ (by rw [hp]; decide)] at h
      rw [List.cons_append, List.find?_cons_of_neg _ (by rw [hp]; decide)]
      exact ih h
    · rw [List.find?_cons_of_pos _ hp] at h
      rw [List.cons_append, List.find?_cons_of_pos _ hp]
      exact h

theorem lookupFile_removeTree_self (files : List (String × String)) (p : String) :
    lookupFile (removeTree files p) p = none := by
  have h : (files.filter (fun f => !(f.1 == p || isPfxOf (p ++ "/") f.1))).find?
      (fun f => f.1 == p) = none := by
    rw [List.find?_eq_none]
    intro x hx hcon
    have hmem := (List.mem_filter.1 hx).2
    rw [hcon, Bool.true_or] at hmem
    exact absurd hmem (by decide)
  unfold lookupFile removeTree
  rw [h]
  rfl

theorem lookupFile_none_removeTree (files : List (String × String)) (d p : String)
    (h : lookupFile files p = none) : lookupFile (removeTree files d) p = none := by
  unfold lookupFile at h ⊢
  have hf : files.find? (fun f => f.1 == p) = none := Option.map_eq_none'.1 h
  unfold removeTree
  have h2 : (files.filter (fun f => !(f.1 == d || isPfxOf (d ++ "/") f.1))).find?
      (fun f => f.1 == p) = none := by
    rw [List.find?_eq_none]
    intro x hx hcon
    exact List.find?_eq_none.1 hf x (List.mem_filter.1 hx).1 hcon
  rw [h2]
  rfl

theorem lookupFile_removeTree_frame (files : List (String × String)) (d p : String)
    (h : (p == d || isPfxOf (d ++ "/") p) = false) :
    lookupFile (removeTree files d) p = lookupFile files p := by
  unfold lookupFile removeTree
  rw [find?_filter_of_imp]
  intro x hx
  have hxp : x.1 = p := by simpa using hx
  simp [hxp, h]

theorem lookupFile_foldl_removeTree_none (ds : List String) :
    ∀ (base : List (String × String)) (p : String),
      lookupFile base p = none →
      lookupFile (ds.foldl removeTree base) p = none := by
  induction ds with
  | nil => intro base p h; exact h
  | cons d ds ih =>
    intro base p h
    show lookupFile (ds.foldl removeTree (removeTree base d)) p = none
    exact ih _ p (lookupFile_none_removeTree base d p h)

theorem lookupFile_foldl_removeTree_mem (ds : List String) :
    ∀ (base : List (String × String)) (p : String), p ∈ ds →
      lookupFile (ds.foldl removeTree base) p = none := by
  induction ds with
  | nil => intro base p h; cases h
  | cons d ds ih =>
    intro base p h
    show lookupFile (ds.foldl removeTree (removeTree base d)) p = none
    rcases List.mem_cons.1 h with h1 | h1
    · subst h1
      exact lookupFile_foldl_removeTree_none ds _ p (lookupFile_removeTree_self base p)
    · exact ih _ p h1

theorem lookupFile_foldl_removeTree_frame (ds : List String) :
    ∀ (base : List (String × String)) (p : String),
      (∀ d ∈ ds, (p == d || isPfxOf (d ++ "/") p) = false) →
      lookupFile (ds.foldl removeTree base) p = lookupFile base p := by
  induction ds with
  | nil => intro base p _; rfl
  | cons d ds ih =>
    intro base p h
    show lookupFile (ds.foldl removeTree (removeTree base d)) p = lookupFile base p
    rw [ih _ p (fun e he => h e (List.mem_cons_of_mem _ he))]
    exact lookupFile_removeTree_frame base d p (h d (List.mem_cons_self _ _))

theorem lookupFile_setFile_self (files : List (String × String)) (k c : String) :
    lookupFile (setFile files k c) k = some c := by
  unfold lookupFile setFile
  have hnone : (files.filter (fun f => f.1 != k)).find? (fun f => f.1 == k) = none := by
    rw [List.find?_eq_none]
    intro x hx hcon
    have hmem := (List.mem_filter.1 hx).2
    have hx1 : x.1 = k := by simpa using hcon
    rw [hx1] at hmem
    simp at hmem
  rw [find?_append_none hnone]
  rw [List.find?_cons_of_pos _ (by simp)]
  rfl

theorem lookupFile_setFile_other (files : List (String × String)) (k c p : String)
    (h : p ≠ k) :
    lookupFile (setFile files k c) p = lookupFile files p := by
  unfold lookupFile setFile
  have hfilter : (files.filter (fun f => f.1 != k)).find? (fun f => f.1 == p) =
      files.find? (fun f => f.1 == p) := by
    apply find?_filter_of_imp
    intro x hx
    have hx1 : x.1 = p := by simpa using hx
    rw [hx1]
    simp [h]
  cases hf : files.find? (fun f => f.1 == p) with
  | none =>
    rw [find?_append_none (hfilter.trans hf)]
    rw [List.find?_cons_of_neg _ (by simp [Ne.symm h])]
    rfl
  | some e =>
    rw [find?_append_some (hfilter.trans hf)]

theorem lookupFile_foldl_setFile (m : Mgr) (fl : List (String × String)) :
    ∀ base : List (String × String),
      ((fl.map (fun q => q.1)).Nodup) →
      (∀ p bn : String, (p, bn) ∈ fl →
        lookupFile (fl.foldl (fun b f => setFile b f.1 (m.deltaContentD f.2 f.1)) base) p =
          some (m.deltaContentD bn p)) ∧
      (∀ p : String, p ∉ fl.map (fun q => q.1) →
        lookupFile (fl.foldl (fun b f => setFile b f.1 (m.deltaContentD f.2 f.1)) base) p =
          lookupFile base p) := by
  induction fl with
  | nil =>
    intro base _
    exact ⟨fun p bn h => absurd h (List.not_mem_nil _), fun p _ => rfl⟩
  | cons f fs ih =>
    intro base hnod
    rw [List.map_cons] at hnod
    have hnod1 := List.nodup_cons.1 hnod
    constructor
    · intro p bn h
      show lookupFile (fs.foldl (fun b g => setFile b g.1 (m.deltaContentD g.2 g.1))
          (setFile base f.1 (m.deltaContentD f.2 f.1))) p = some (m.deltaContentD bn p)
      rcases List.mem_cons.1 h with h1 | h1
      · have hp : p = f.1 := congrArg Prod.fst h1
        have hbn : bn = f.2 := congrArg Prod.snd h1
        have hnmem : p ∉ fs.map (fun q => q.1) := by rw [hp]; exact hnod1.1
        rw [(ih (setFile base f.1 (m.deltaContentD f.2 f.1)) hnod1.2).2 p hnmem]
        rw [hp, hbn]
        exact lookupFile_setFile_self base f.1 (m.deltaContentD f.2 f.1)
      · exact (ih _ hnod1.2).1 p bn h1
    · intro p hp
      rw [List.map_cons] at hp
      have hp1 : p ≠ f.1 := fun hc => hp (by rw [hc]; exact List.mem_cons_self _ _)
      have hp2 : p ∉ fs.map (fun q => q.1) := fun hc => hp (List.mem_cons_of_mem _ hc)
      show lookupFile (fs.foldl (fun b g => setFile b g.1 (m.deltaContentD g.2 g.1))
          (setFile base f.1 (m.deltaContentD f.2 f.1))) p = lookupFile base p
      rw [(ih _ hnod1.2).2 p hp2]
      exact lookupFile_setFile_other base f.1 (m.deltaContentD f.2 f.1) p hp1

/-! ### C1: relating the chain resolution to `firstHit` -/

theorem any_congr_mem {α : Type} (l : List α) (g1 g2 : α → Bool)
    (h : ∀ x ∈ l, g1 x = g2 x) : l.any g1 = l.any g2 := by
  induction l with
  | nil => rfl
  | cons x xs ih =>
    rw [List.any_cons, List.any_cons, h x (List.mem_cons_self _ _),
      ih (fun y hy => h y (List.mem_cons_of_mem _ hy))]

theorem hasFileAt_treeExists (m : Mgr) (bn rel : String)
    (h : hasFileAt m bn rel = true) : m.has_delta bn rel = true := by
  rw [hasFileAt_iff] at h
  rcases List.mem_map.1 h with ⟨f, hf, hfe⟩
  unfold Mgr.has_delta treeExists
  have h2 : (m.deltaFilesOf bn).any (fun g => g.1 == rel || isPfxOf (rel ++ "/") g.1) = true := by
    rw [List.any_eq_true]
    exact ⟨f, hf, by rw [hfe]; simp⟩
  rw [h2, Bool.or_true]

theorem has_delta_eq_hasFileAt (m : Mgr) (ch : List Branch) (rel : String)
    (bf : Branch) (hbf : bf ∈ ch) (hfile : rel ∈ (m.deltaFilesOf bf.name).map (fun f => f.1))
    (hnc : NoConflict m ch)
    (hns : ∀ b ∈ ch, ∀ f ∈ m.deltaFilesOf b.name, f.1 ≠ "/")
    (b : Branch) (hb : b ∈ ch) :
    m.has_delta b.name rel = hasFileAt m b.name rel := by
  rcases List.mem_map.1 hfile with ⟨f0, hf0, hf0e⟩
  unfold Mgr.has_delta treeExists hasFileAt
  have hslash : (rel == "/") = false := by
    rw [← hf0e]
    exact beq_eq_false_iff_ne.2 (hns bf hbf f0 hf0)
  rw [hslash, Bool.false_or]
  apply any_congr_mem
  intro f hf
  have hpfx : isPfxOf (rel ++ "/") f.1 = false := by
    rw [← hf0e]
    exact hnc bf hbf b hb f0 hf0 f hf
  rw [hpfx, Bool.or_false]

theorem chainResolve_none_firstHit (m : Mgr) (rel : String) :
    ∀ ch : List Branch, chainResolve m ch rel = none → firstHit m rel ch = none := by
  intro ch
  induction ch with
  | nil => intro _; rfl
  | cons b rest ih =>
    intro h
    simp only [chainResolve] at h
    simp only [firstHit]
    by_cases hd : b.is_deleted rel = true
    · rw [if_pos hd]
    · rw [if_neg hd] at h
      rw [if_neg hd]
      by_cases hdel : m.has_delta b.name rel = true
      · rw [if_pos hdel] at h
        exact Option.noConfusion h
      · rw [if_neg hdel] at h
        have hnf : ¬ hasFileAt m b.name rel = true :=
          fun hc => hdel (hasFileAt_treeExists m b.name rel hc)
        rw [if_neg hnf]
        exact ih h

theorem chainResolve_found_firstHit (m : Mgr) (rel bn : String) (chAll : List Branch)
    (hnc : NoConflict m chAll)
    (hns : ∀ b ∈ chAll, ∀ f ∈ m.deltaFilesOf b.name, f.1 ≠ "/")
    (bf : Branch) (hbf : bf ∈ chAll) (hbfn : bf.name = bn)
    (hfile : rel ∈ (m.deltaFilesOf bn).map (fun f => f.1)) :
    ∀ ch : List Branch, (∀ b ∈ ch, b ∈ chAll) →
      chainResolve m ch rel = some (.delta bn rel) → firstHit m rel ch = some bn := by
  intro ch
  induction ch with
  | nil =>
    intro _ h
    simp only [chainResolve] at h
    split at h
    · exact StoragePath.noConfusion (Option.some.inj h)
    · exact Option.noConfusion h
  | cons b rest ih =>
    intro hsub h
    simp only [chainResolve] at h
    simp only [firstHit]
    by_cases hd : b.is_deleted rel = true
    · rw [if_pos hd] at h
      exact Option.noConfusion h
    · rw [if_neg hd] at h
      rw [if_neg hd]
      have hbmem : b ∈ chAll := hsub b (List.mem_cons_self _ _)
      have heq := has_delta_eq_hasFileAt m chAll rel bf hbf
        (by rw [hbfn]; exact hfile) hnc hns b hbmem
      by_cases hdel : m.has_delta b.name rel = true
      · rw [if_pos hdel] at h
        have h2 := Option.some.inj h
        injection h2 with hname hrel
        rw [if_pos (by rw [← heq]; exact hdel), hname]
      · rw [if_neg hdel] at h
        have hnf : ¬ hasFileAt m b.name rel = true := by
          rw [← heq]; exact hdel
        rw [if_neg hnf]
        exact ih (fun x hx => hsub x (List.mem_cons_of_mem _ hx)) h

theorem chainResolve_none_base (m : Mgr) (rel : String) :
    ∀ ch : List Branch, chainResolve m ch rel = none →
      (∀ b ∈ ch, rel ∉ b.tombstones) → m.baseExists rel = false := by
  intro ch
  induction ch with
  | nil =>
    intro h _
    simp only [chainResolve] at h
    by_cases hbex : m.baseExists rel = true
    · rw [if_pos hbex] at h
      exact Option.noConfusion h
    · cases hb2 : m.baseExists rel with
      | false => rfl
      | true => exact absurd hb2 hbex
  | cons b rest ih =>
    intro h hnt
    simp only [chainResolve] at h
    have hd : ¬ b.is_deleted rel = true :=
      fun hc => hnt b (List.mem_cons_self _ _) ((is_deleted_iff b rel).1 hc)
    rw [if_neg hd] at h
    by_cases hdel : m.has_delta b.name rel = true
    · rw [if_pos hdel] at h
      exact Option.noConfusion h
    · rw [if_neg hdel] at h
      exact ih h (fun x hx => hnt x (List.mem_cons_of_mem _ hx))

theorem lookupFile_none_of_not_baseExists (m : Mgr) (p : String)
    (h : m.baseExists p = false) : lookupFile m.base p = none := by
  unfold Mgr.baseExists treeExists at h
  have hany : m.base.any (fun f => f.1 == p || isPfxOf (p ++ "/") f.1) = false := by
    cases ha : m.base.any (fun f => f.1 == p || isPfxOf (p ++ "/") f.1) with
    | false => rfl
    | true =>
      rw [ha, Bool.or_true] at h
      exact Bool.noConfusion h
  unfold lookupFile
  have hf : m.base.find? (fun f => f.1 == p) = none := by
    rw [List.find?_eq_none]
    intro x hx hcon
    have h2 : m.base.any (fun f => f.1 == p || isPfxOf (p ++ "/") f.1) = true := by
      rw [List.any_eq_true]
      exact ⟨x, hx, by rw [hcon, Bool.true_or]⟩
    rw [hany] at h2
    exact Bool.noConfusion h2
  rw [hf]
  rfl

/-! ### C1: the commit theorem -/

/-- C1 (corrected): after a successful `commit(b)` (with the branch chain of
`b` well formed: no delta file below another delta file, no delta file at
`"/"`), the epoch is the prior epoch plus one and the in-memory branch set is
exactly `{main}`; but the on-disk directories of the destroyed branches are
NOT removed (the disk key set only grows).  The base receives exactly the
deltas visible from `b`: a path resolving to a delta ends up in the base with
that delta's content — even when an ancestor branch tombstones it, contrary
to the claim's "no tombstoned path" conjunct — a path tombstoned in the chain
and resolving to absent is removed, and a path no chain member touches keeps
its base entry. -/
theorem commit_spec (m : Mgr) (name : String) (m' : Mgr) (ch : List Branch)
    (hok : commit m name = .ok m')
    (hch : get_branch_chain m name = some ch)
    (hnc : NoConflict m ch)
    (hns : ∀ b ∈ ch, ∀ f ∈ m.deltaFilesOf b.name, f.1 ≠ "/") :
    m'.epoch = m.epoch + 1 ∧
    m'.branches.map (fun b => b.name) = ["main"] ∧
    (∀ n, n ∈ m.disk.map (fun e => e.1) → n ∈ m'.disk.map (fun e => e.1)) ∧
    (∀ p bn : String, ∀ bf ∈ ch, bf.name = bn →
      p ∈ (m.deltaFilesOf bn).map (fun f => f.1) →
      resolve_path m name p = .ok (some (.delta bn p)) →
      lookupFile m'.base p = some (m.deltaContentD bn p)) ∧
    (∀ p : String, resolve_path m name p = .ok none →
      lookupFile m'.base p = none) ∧
    (∀ p : String,
      (∀ b ∈ ch, ∀ t ∈ b.tombstones, (p == t || isPfxOf (t ++ "/") p) = false) →
      firstHit m p ch = none →
      lookupFile m'.base p = lookupFile m.base p) := by
  obtain ⟨hname, ch2, hch2, hm'⟩ := commit_ok hok
  rw [hch] at hch2
  injection hch2 with hch2
  subst hch2
  subst hm'
  obtain ⟨hD, hN, hF⟩ := collectGo_spec m ch [] [] [] rfl
  have hccrfl : collect_changes m ch = collectGo m ch [] [] [] := rfl
  have hD' : ∀ p : String, p ∈ (collect_changes m ch).1 ↔ ∃ b ∈ ch, p ∈ b.tombstones := by
    intro p
    rw [hccrfl, hD p]
    simp
  have hF' : ∀ q : String × String,
      q ∈ (collect_changes m ch).2 ↔ firstHit m q.1 ch = some q.2 := by
    intro q
    rw [hccrfl, hF q]
    simp
  have hNodup : (((collect_changes m ch).2).map (fun q => q.1)).Nodup := by
    rw [hccrfl]
    exact hN List.nodup_nil
  have hbridge := fun p => resolveWalk_eq_chain m p (m.branches.length + 1) name ch hch
  refine ⟨rfl, ?_, ?_, ?_, ?_, ?_⟩
  · show [(branchNew m.disk "main" none).1.name] = ["main"]
    rw [(branchNew_fst m.disk "main" none).1]
  · intro n hn
    show n ∈ (branchNew m.disk "main" none).2.map (fun e => e.1)
    unfold branchNew
    cases diskLookup m.disk "main" with
    | some bd => exact hn
    | none =>
      show n ∈ (m.disk ++ [("main", (⟨[], []⟩ : BranchDisk))]).map (fun e => e.1)
      rw [List.map_append]
      exact List.mem_append.2 (.inl hn)
  · intro p bn bf hbf hbfn hfile hres
    have hcr : chainResolve m ch p = some (.delta bn p) :=
      RRes.ok.inj ((hbridge p).symm.trans hres)
    have hfh : firstHit m p ch = some bn :=
      chainResolve_found_firstHit m p bn ch hnc hns bf hbf hbfn hfile ch
        (fun x hx => hx) hcr
    have hmem : (p, bn) ∈ (collect_changes m ch).2 := (hF' (p, bn)).2 hfh
    show lookupFile ((collect_changes m ch).2.foldl
        (fun b f => setFile b f.1 (m.deltaContentD f.2 f.1))
        ((collect_changes m ch).1.foldl removeTree m.base)) p = some (m.deltaContentD bn p)
    exact (lookupFile_foldl_setFile m (collect_changes m ch).2 _ hNodup).1 p bn hmem
  · intro p hres
    have hcr : chainResolve m ch p = none :=
      RRes.ok.inj ((hbridge p).symm.trans hres)
    have hfh := chainResolve_none_firstHit m p ch hcr
    have hnkeys : p ∉ (collect_changes m ch).2.map (fun q => q.1) := by
      intro hc
      rcases List.mem_map.1 hc with ⟨q, hq, hqe⟩
      have h2 := (hF' q).1 hq
      rw [hqe, hfh] at h2
      exact Option.noConfusion h2
    show lookupFile ((collect_changes m ch).2.foldl
        (fun b f => setFile b f.1 (m.deltaContentD f.2 f.1))
        ((collect_changes m ch).1.foldl removeTree m.base)) p = none
    rw [(lookupFile_foldl_setFile m (collect_changes m ch).2 _ hNodup).2 p hnkeys]
    by_cases hdel : p ∈ (collect_changes m ch).1
    · exact lookupFile_foldl_removeTree_mem (collect_changes m ch).1 m.base p hdel
    · have hnt : ∀ b ∈ ch, p ∉ b.tombstones := by
        intro b hb ht
        exact hdel ((hD' p).2 ⟨b, hb, ht⟩)
      have hbase := chainResolve_none_base m p ch hcr hnt
      exact lookupFile_foldl_removeTree_none (collect_changes m ch).1 m.base p
        (lookupFile_none_of_not_baseExists m p hbase)
  · intro p hpt hfh
    have hnkeys : p ∉ (collect_changes m ch).2.map (fun q => q.1) := by
      intro hc
      rcases List.mem_map.1 hc with ⟨q, hq, hqe⟩
      have h2 := (hF' q).1 hq
      rw [hqe, hfh] at h2
      exact Option.noConfusion h2
    have hdels : ∀ d ∈ (collect_changes m ch).1, (p == d || isPfxOf (d ++ "/") p) = false := by
      intro d hd
      rcases (hD' d).1 hd with ⟨b, hb, ht⟩
      exact hpt b hb d ht
    show lookupFile ((collect_changes m ch).2.foldl
        (fun b f => setFile b f.1 (m.deltaContentD f.2 f.1))
        ((collect_changes m ch).1.foldl removeTree m.base)) p = lookupFile m.base p
    rw [(lookupFile_foldl_setFile m (collect_changes m ch).2 _ hNodup).2 p hnkeys]
    exact lookupFile_foldl_removeTree_frame (collect_changes m ch).1 m.base p hdels

/-- C1 witness: a two-branch state on which `commit "b1"` succeeds and
`commit_spec` yields the base contents: the delta file `/a` is copied in, the
tombstoned `/t` is removed, and the epoch advances. -/
theorem commit_spec_witness :
    ∃ m' : Mgr,
      commit { branches := [{ name := "main", parent := none, tombstones := [] }, { name := "b1", parent := some "main", tombstones := ["/t"] }], disk := [("main", ⟨[], []⟩), ("b1", ⟨["/t"], [("/a", "va")]⟩)], base := [("/t", "x"), ("/keep", "k")], epoch := 0 } "b1" = .ok m' ∧
      lookupFile m'.base "/a" = some "va" ∧
      lookupFile m'.base "/t" = none ∧
      m'.epoch = 1 := by
  obtain ⟨m', hok⟩ : ∃ m', commit { branches := [{ name := "main", parent := none, tombstones := [] }, { name := "b1", parent := some "main", tombstones := ["/t"] }], disk := [("main", ⟨[], []⟩), ("b1", ⟨["/t"], [("/a", "va")]⟩)], base := [("/t", "x"), ("/keep", "k")], epoch := 0 } "b1" = .ok m' := ⟨_, rfl⟩
  have hch : get_branch_chain { branches := [{ name := "main", parent := none, tombstones := [] }, { name := "b1", parent := some "main", tombstones := ["/t"] }], disk := [("main", ⟨[], []⟩), ("b1", ⟨["/t"], [("/a", "va")]⟩)], base := [("/t", "x"), ("/keep", "k")], epoch := 0 } "b1" = some [{ name := "b1", parent := some "main", tombstones := ["/t"] }, { name := "main", parent := none, tombstones := [] }] := rfl
  have h := commit_spec _ "b1" m' [{ name := "b1", parent := some "main", tombstones := ["/t"] }, { name := "main", parent := none, tombstones := [] }] hok hch (by unfold NoConflict; decide) (by decide)
  refine ⟨m', hok, ?_, ?_, h.1⟩
  · have h4 := h.2.2.2.1 "/a" "b1" { name := "b1", parent := some "main", tombstones := ["/t"] }
      (List.mem_cons_self _ _) rfl (by decide) (by decide)
    exact h4.trans rfl
  · exact h.2.2.2.2.1 "/t" (by decide)

/-- C1 counterexample: a reachable shape `main ← b1 ← b2` where `b1`
tombstones `/x` and `b2` holds a delta for `/x`.  After `commit "b2"` the
path `/x` — tombstoned in `b2`'s chain — is still present in the base (the
closer delta wins), and the destroyed branch `b1`'s on-disk directory is
still in the disk map, refuting both the "no tombstoned path" and the
"on-disk directories removed" conjuncts of the claim. -/
theorem commit_claim_counterexample :
    commit { branches := [{ name := "main", parent := none, tombstones := [] }, { name := "b1", parent := some "main", tombstones := ["/x"] }, { name := "b2", parent := some "b1", tombstones := [] }], disk := [("main", ⟨[], []⟩), ("b1", ⟨["/x"], []⟩), ("b2", ⟨[], [("/x", "v2")]⟩)], base := [("/x", "v1")], epoch := 5 } "b2" = .ok { branches := [{ name := "main", parent := none, tombstones := [] }], disk := [("main", ⟨[], []⟩), ("b1", ⟨["/x"], []⟩), ("b2", ⟨[], [("/x", "v2")]⟩)], base := [("/x", "v2")], epoch := 6 } ∧
    "/x" ∈ ({ branches := [{ name := "main", parent := none, tombstones := [] }], disk := [("main", ⟨[], []⟩), ("b1", ⟨["/x"], []⟩), ("b2", ⟨[], [("/x", "v2")]⟩)], base := [("/x", "v2")], epoch := 6 } : Mgr).base.map (fun f => f.1) ∧
    "b1" ∈ ({ branches := [{ name := "main", parent := none, tombstones := [] }], disk := [("main", ⟨[], []⟩), ("b1", ⟨["/x"], []⟩), ("b2", ⟨[], [("/x", "v2")]⟩)], base := [("/x", "v2")], epoch := 6 } : Mgr).disk.map (fun e => e.1) ∧
    (∃ b ∈ ({ branches := [{ name := "main", parent := none, tombstones := [] }, { name := "b1", parent := some "main", tombstones := ["/x"] }, { name := "b2", parent := some "b1", tombstones := [] }], disk := [("main", ⟨[], []⟩), ("b1", ⟨["/x"], []⟩), ("b2", ⟨[], [("/x", "v2")]⟩)], base := [("/x", "v1")], epoch := 5 } : Mgr).branches, b.name = "b1" ∧ "/x" ∈ b.tombstones) := by
  refine ⟨rfl, by decide, by decide, ?_⟩
  exact ⟨{ name := "b1", parent := some "main", tombstones := ["/x"] }, by decide, rfl, by decide⟩

end BranchFs
